import Mathlib

/-!
# The Frame translator (`src/translator/frame/Frame.cpp`)

`Frame::Translate` draws a box around a text, with optional line numbers and an
optional ASCII-only border.  The embedding follows the source statement by
statement:

* `std::string` / `std::wstring` are lists of characters (`List Char`); the byte
  string handed to `Translate` is represented by the characters it encodes;
* `int` values are mathematical integers (`Int`), sizes being taken to fit the
  machine type; the digit-count loop, whose product leaves the range of a 32-bit
  `int` from `10 ^ 9` lines on, is also given in 32-bit arithmetic (`digitLoop32`);
* `while` loops whose termination is not structural carry a fuel argument and
  return `none` when it runs out;
* the canvas (`Screen`) and the option map are collaborators whose sources are
  not part of `Frame.cpp`; they are modelled from the specification, with a
  bounds-checked pixel write that returns `none` on an out-of-range coordinate.
-/

namespace Diagon

/-! ## The canvas -/

/-- One pixel write: column, row and glyph. -/
abbrev Pixel := Int × Int × Char

/-- Modelled from the spec: the Canvas (class `Screen` of `screen/Screen.h`, whose
source is missing): a fixed-size rectangular grid of single characters with origin
`(0,0)`; `cell x y` is the character in column `x` of row `y`. -/
structure Screen where
  dim_x : Int
  dim_y : Int
  cell : Int → Int → Char

namespace Screen

/-- Modelled from the spec: `construct(width, height)`; a cell that was never
written renders as a space. -/
def create (dim_x dim_y : Int) : Screen :=
  ⟨dim_x, dim_y, fun _ _ => ' '⟩

/-- Modelled from the spec: `drawPixel(x, y, glyph)` on a bounds-checked canvas:
a coordinate outside `[0,dim_x) × [0,dim_y)` takes the out-of-range branch
(`none`); otherwise the one cell is overwritten. -/
def DrawPixel (s : Screen) (x y : Int) (c : Char) : Option Screen :=
  if 0 ≤ x ∧ x < s.dim_x ∧ 0 ≤ y ∧ y < s.dim_y then
    some { s with cell := fun x1 y1 => if x1 = x ∧ y1 = y then c else s.cell x1 y1 }
  else
    none

/-- A sequence of pixel writes, in order; the first out-of-range write aborts. -/
def DrawPixels (s : Screen) : List Pixel → Option Screen
  | [] => some s
  | p :: ps => (s.DrawPixel p.1 p.2.1 p.2.2).bind fun s1 => DrawPixels s1 ps

/-- Modelled from the spec: the cells `placeText(x, y, text)` writes: the `k`-th
character of `text` goes to column `x + k` of row `y`. -/
def textPixels (x y : Int) : List Char → List Pixel
  | [] => []
  | c :: text => (x, y, c) :: textPixels (x + 1) y text

/-- Modelled from the spec: the cells `drawHorizontalLine(x0, x1, y, glyph)` writes:
columns `left` to `right`, both included, of row `y`. -/
def horizontalLinePixels (left right y : Int) (c : Char) : List Pixel :=
  (List.range (right + 1 - left).toNat).map fun (k : Nat) => (left + (k : Int), y, c)

/-- Modelled from the spec: the cells `drawVerticalLine(y0, y1, x, glyph)` writes:
rows `top` to `bottom` of column `x`. The bottom endpoint is taken as included, like
the right endpoint of the horizontal line; the spec does not state it. -/
def verticalLinePixels (top bottom x : Int) (c : Char) : List Pixel :=
  (List.range (bottom + 1 - top).toNat).map fun (k : Nat) => (x, top + (k : Int), c)

/-- Modelled from the spec: the cells `drawBox(x, y, width, height)` writes: the four
corners of the rectangle, then its top and bottom edges, then its left and right
edges, in box-drawing glyphs. -/
def boxPixels (x y w h : Int) : List Pixel :=
  [(x, y, '┌'), (x + w - 1, y, '┐'), (x + w - 1, y + h - 1, '┘'), (x, y + h - 1, '└')]
    ++ horizontalLinePixels (x + 1) (x + w - 2) y '─'
    ++ horizontalLinePixels (x + 1) (x + w - 2) (y + h - 1) '─'
    ++ verticalLinePixels (y + 1) (y + h - 2) x '│'
    ++ verticalLinePixels (y + 1) (y + h - 2) (x + w - 1) '│'

/-- Modelled from the spec: the default glyph of `drawVerticalLine` (the default
argument declared in `screen/Screen.h`, whose source is missing): the vertical
box-drawing bar that the box-drawing scenario shows in the separator column. -/
def defaultVerticalGlyph : Char := '│'

/-- Modelled from the spec: `placeText(x, y, text)`. -/
def DrawText (s : Screen) (x y : Int) (text : List Char) : Option Screen :=
  s.DrawPixels (textPixels x y text)

/-- Modelled from the spec: `drawHorizontalLine(x0, x1, y, glyph)`. -/
def DrawHorizontalLine (s : Screen) (left right y : Int) (c : Char) : Option Screen :=
  s.DrawPixels (horizontalLinePixels left right y c)

/-- Modelled from the spec: `drawVerticalLine(y0, y1, x, glyph=default)`; a call
that leaves the glyph out is embedded with `defaultVerticalGlyph` written out. -/
def DrawVerticalLine (s : Screen) (top bottom x : Int) (c : Char) : Option Screen :=
  s.DrawPixels (verticalLinePixels top bottom x c)

/-- Modelled from the spec: `drawBox(x, y, width, height)`. -/
def DrawBox (s : Screen) (x y w h : Int) : Option Screen :=
  s.DrawPixels (boxPixels x y w h)

/-- The glyph of the last write of a sequence that hits the cell `(x, y)`. -/
def lastWrite (x y : Int) : List Pixel → Option Char
  | [] => none
  | p :: ps =>
    match lastWrite x y ps with
    | some c => some c
    | none => if p.1 = x ∧ p.2.1 = y then some p.2.2 else none

/-- The pixel lies on a canvas of `w` columns and `h` rows. -/
def inside (w h : Int) (p : Pixel) : Prop :=
  0 ≤ p.1 ∧ p.1 < w ∧ 0 ≤ p.2.1 ∧ p.2.1 < h

/-- The rows of the grid, top to bottom, each left to right. -/
def rows (s : Screen) : List (List Char) :=
  (List.range s.dim_y.toNat).map fun (y : Nat) =>
    (List.range s.dim_x.toNat).map fun (x : Nat) => s.cell (x : Int) (y : Int)

/-- Modelled from the spec: `toString()`: the rows joined by line breaks. -/
def ToString (s : Screen) : List Char :=
  List.intercalate ['\n'] s.rows

end Screen

/-! ## Helpers of `translator/Translator.h` -/

/-- Modelled from the spec: the resolved option set, the `std::map` that
`SerializeOption` (source missing) returns, as its list of key/value entries. -/
structure OptionMap where
  entries : List (String × String)

/-- The `std::map::count` of a key: 1 when the key is present, else 0. -/
def OptionMap.count (options : OptionMap) (key : String) : Nat :=
  if (options.entries.lookup key).isSome then 1 else 0

/-- The `std::map::at` of a key: the value stored under it (`none` models the
exception thrown for a missing key). -/
def OptionMap.value (options : OptionMap) (key : String) : Option String :=
  options.entries.lookup key

/-- Modelled from the spec: `to_wstring` (source missing) turns a line into the
sequence of its display characters; the input is already given by its characters. -/
def to_wstring (line : List Char) : List Char := line

/-- The decimal string of a natural number, as `std::to_string` prints it. -/
def to_string (n : Nat) : List Char := Nat.toDigits 10 n

/-- The `std::getline` of the source on the unread part of the stream: it fails
(`none`) when nothing is left; otherwise it extracts the characters up to the
first line break, which it consumes and drops, and leaves the rest. -/
def getline (ss : List Char) : Option (List Char × List Char) :=
  match ss with
  | [] => none
  | _ :: _ => some (ss.takeWhile (· ≠ '\n'), (ss.dropWhile (· ≠ '\n')).drop 1)

namespace Frame

/-- Lines 18-20: `ascii_only` is set when the key is present with value `"true"`. -/
def ascii_only (options : OptionMap) : Bool :=
  if options.count "ascii_only" ≠ 0 ∧ options.value "ascii_only" = some "true" then true
  else false

/-- Lines 22-24: `line_number` is cleared when the key is present with value
`"false"`. -/
def line_number (options : OptionMap) : Bool :=
  if options.count "line_number" ≠ 0 ∧ options.value "line_number" = some "false" then false
  else true

/-- Lines 30-32: the `while (std::getline(ss, line))` loop, `lines` being the
vector built so far. -/
def readLines : Nat → List Char → List (List Char) → Option (List (List Char))
  | 0, _, _ => none
  | fuel + 1, ss, lines =>
    match getline ss with
    | none => some lines
    | some (line, rest) => readLines fuel rest (lines ++ [to_wstring line])

/-- Lines 26-32: the input cut by lines. One round of the loop consumes at least
one character, so `input.length + 1` rounds are enough. -/
def cutLines (input : List Char) : Option (List (List Char)) :=
  readLines (input.length + 1) input []

/-- Lines 36-39: the digit-count loop from a state `(max_number, number_length)`, on
the integers; `size` is `(int)lines.size()`. The result is the state in which the loop
exits. `digitLoop32` is the same loop in 32-bit arithmetic. -/
def digitLoop (size : Int) : Nat → Int → Int → Option (Int × Int)
  | 0, _, _ => none
  | fuel + 1, max_number, number_length =>
    if max_number ≤ size then digitLoop size fuel (max_number * 10) (number_length + 1)
    else some (max_number, number_length)

/-- Lines 35-39: the states `(max_number, number_length)` the digit-count loop passes
through, the initial state first and one more state for every round of its body. -/
def digitStates (size : Int) : Nat → Int → Int → List (Int × Int)
  | 0, _, _ => []
  | fuel + 1, max_number, number_length =>
    (max_number, number_length) ::
      (if max_number ≤ size then digitStates size fuel (max_number * 10) (number_length + 1)
       else [])

/-- Lines 34-39: `number_length` after the loop, started from `max_number = 1` and
`number_length = 0`. -/
def number_length (lines : List (List Char)) : Option Int :=
  (digitLoop (lines.length : Int) (lines.length + 1) 1 0).map Prod.snd

/-- The value a 32-bit two's-complement `int` holds when the mathematical result of an
operation is `v`: `v` reduced modulo `2 ^ 32` into the range from `-2 ^ 31` to
`2 ^ 31 - 1`. -/
def wrapInt32 (v : Int) : Int :=
  (v + 2147483648) % 4294967296 - 2147483648

/-- Lines 36-39 in the arithmetic of the source's 32-bit `int`: `max_number *= 10` and
`number_length++` wrap around when they leave the range (the C++ standard leaves the
overflow undefined; this is what two's-complement hardware computes). -/
def digitLoop32 (size : Int) : Nat → Int → Int → Option (Int × Int)
  | 0, _, _ => none
  | fuel + 1, max_number, number_length =>
    if max_number ≤ size then
      digitLoop32 size fuel (wrapInt32 (max_number * 10)) (wrapInt32 (number_length + 1))
    else some (max_number, number_length)

/-- Lines 34-39 in 32-bit arithmetic: `number_length` after the loop, `size` being
`(int)lines.size()`. -/
def number_length32 (lines : List (List Char)) : Option Int :=
  (digitLoop32 (wrapInt32 (lines.length : Int)) (lines.length + 1) 1 0).map Prod.snd

/-- Lines 41-44: the running maximum of the line sizes, from 0. -/
def text_max_width (lines : List (List Char)) : Int :=
  lines.foldl (fun acc line => max acc (line.length : Int)) 0

/-- The values lines 34-56 derive from the lines and the two options. -/
structure Geometry where
  number_length : Int
  text_max_width : Int
  width : Int
  height : Int
  text_x : Int
  text_y : Int

/-- Lines 34-56: the geometry of the frame. -/
def geometry (line_number ascii_only : Bool) (lines : List (List Char)) : Option Geometry :=
  (number_length lines).map fun number_length =>
    let text_max_width := text_max_width lines
    let ascii : Int := if ascii_only then 1 else 0
    if line_number then
      { number_length := number_length
        text_max_width := text_max_width
        width := number_length + text_max_width + 3
        height := (lines.length : Int) + 2 + ascii
        text_x := number_length + 2
        text_y := if ascii_only then 2 else 1 }
    else
      { number_length := number_length
        text_max_width := text_max_width
        width := text_max_width + 2
        height := (lines.length : Int) + 2 + ascii
        text_x := 1
        text_y := if ascii_only then 2 else 1 }

/-- Lines 61-63: the text loop, `y` being the index of the first line of `lines`. -/
def drawLines (text_x text_y : Int) : Nat → List (List Char) → Screen → Option Screen
  | _, [], screen => some screen
  | y, line :: lines, screen =>
    (screen.DrawText text_x (text_y + (y : Int)) line).bind
      fun screen1 => drawLines text_x text_y (y + 1) lines screen1

/-- Lines 67-69: the line-number loop, from index `y` for `count` more rounds. -/
def drawNumbers (text_y : Int) : Nat → Nat → Screen → Option Screen
  | 0, _, screen => some screen
  | count + 1, y, screen =>
    (screen.DrawText 1 (text_y + (y : Int)) (to_wstring (to_string (y + 1)))).bind
      fun screen1 => drawNumbers text_y count (y + 1) screen1

/-- Lines 72-80: the border. -/
def drawBorder (ascii_only : Bool) (g : Geometry) (screen : Screen) : Option Screen :=
  if ascii_only then do
    let screen ← screen.DrawHorizontalLine 1 (g.width - 2) 0 '_'
    let screen ← screen.DrawHorizontalLine 1 (g.width - 2) (g.height - 1) '_'
    let screen ← screen.DrawVerticalLine 1 (g.height - 1) 0 Screen.defaultVerticalGlyph
    screen.DrawVerticalLine 1 (g.height - 1) (g.width - 1) Screen.defaultVerticalGlyph
  else
    screen.DrawBox 0 0 g.width g.height

/-- Lines 82-91: the line number separator. -/
def drawSeparator (line_number ascii_only : Bool) (g : Geometry) (screen : Screen) :
    Option Screen :=
  if line_number then
    if ascii_only then
      screen.DrawVerticalLine 1 (g.height - 1) (g.number_length + 1) '|'
    else do
      let screen ← screen.DrawPixel (g.number_length + 1) 0 '┬'
      let screen ← screen.DrawVerticalLine 1 (g.height - 1) (g.number_length + 1)
        Screen.defaultVerticalGlyph
      screen.DrawPixel (g.number_length + 1) (g.height - 1) '┴'
  else
    some screen

/-- Lines 58-91: the canvas is created and painted: text, line numbers, border,
separator. -/
def paint (line_number ascii_only : Bool) (g : Geometry) (lines : List (List Char)) :
    Option Screen := do
  let screen := Screen.create g.width g.height
  let screen ← drawLines g.text_x g.text_y 0 lines screen
  let screen ← if line_number then drawNumbers g.text_y lines.length 0 screen else some screen
  let screen ← drawBorder ascii_only g screen
  drawSeparator line_number ascii_only g screen

/-- The pixels the text loop writes, in order. -/
def linesPixels (text_x text_y : Int) : Nat → List (List Char) → List Pixel
  | _, [] => []
  | y, line :: lines =>
    Screen.textPixels text_x (text_y + (y : Int)) line ++ linesPixels text_x text_y (y + 1) lines

/-- The pixels the line-number loop writes, in order. -/
def numbersPixels (text_y : Int) : Nat → Nat → List Pixel
  | 0, _ => []
  | count + 1, y =>
    Screen.textPixels 1 (text_y + (y : Int)) (to_wstring (to_string (y + 1)))
      ++ numbersPixels text_y count (y + 1)

/-- The pixels the border writes, in order. -/
def borderPixels (ascii_only : Bool) (g : Geometry) : List Pixel :=
  if ascii_only then
    Screen.horizontalLinePixels 1 (g.width - 2) 0 '_'
      ++ Screen.horizontalLinePixels 1 (g.width - 2) (g.height - 1) '_'
      ++ Screen.verticalLinePixels 1 (g.height - 1) 0 Screen.defaultVerticalGlyph
      ++ Screen.verticalLinePixels 1 (g.height - 1) (g.width - 1) Screen.defaultVerticalGlyph
  else
    Screen.boxPixels 0 0 g.width g.height

/-- The pixels the separator writes, in order. -/
def separatorPixels (line_number ascii_only : Bool) (g : Geometry) : List Pixel :=
  if line_number then
    if ascii_only then
      Screen.verticalLinePixels 1 (g.height - 1) (g.number_length + 1) '|'
    else
      (g.number_length + 1, 0, '┬')
        :: (Screen.verticalLinePixels 1 (g.height - 1) (g.number_length + 1)
              Screen.defaultVerticalGlyph
            ++ [(g.number_length + 1, g.height - 1, '┴')])
  else
    []

/-- Every pixel the draw calls of lines 60-91 write, in the order of the calls. -/
def framePixels (line_number ascii_only : Bool) (g : Geometry) (lines : List (List Char)) :
    List Pixel :=
  linesPixels g.text_x g.text_y 0 lines
    ++ (if line_number then numbersPixels g.text_y lines.length 0 else [])
    ++ borderPixels ascii_only g
    ++ separatorPixels line_number ascii_only g

/-- Lines 16-91 of `Frame::Translate`: the canvas just before it is serialised. -/
def TranslateScreen (input : List Char) (options : OptionMap) : Option Screen := do
  let lines ← cutLines input
  let g ← geometry (line_number options) (ascii_only options) lines
  paint (line_number options) (ascii_only options) g lines

/-- The function `Frame::Translate` (lines 14-94), on the resolved options. -/
def Translate (input : List Char) (options : OptionMap) : Option (List Char) :=
  (TranslateScreen input options).map Screen.ToString

end Frame

/-! ## Pixel sequences on the canvas -/

namespace Screen

theorem DrawPixels_append (s : Screen) (a b : List Pixel) :
    s.DrawPixels (a ++ b) = (s.DrawPixels a).bind fun s1 => s1.DrawPixels b := by
  induction a generalizing s with
  | nil => simp [DrawPixels]
  | cons p ps ih =>
    simp only [List.cons_append, DrawPixels]
    cases h : s.DrawPixel p.1 p.2.1 p.2.2 with
    | none => simp
    | some s1 => simp [ih]

theorem lastWrite_append (x y : Int) (a b : List Pixel) :
    lastWrite x y (a ++ b) =
      match lastWrite x y b with
      | some c => some c
      | none => lastWrite x y a := by
  induction a with
  | nil => cases h : lastWrite x y b <;> simp [lastWrite, h]
  | cons p ps ih =>
    rw [List.cons_append]
    simp only [lastWrite]
    rw [ih]
    cases h : lastWrite x y b <;> simp

theorem lastWrite_eq_none (x y : Int) (ps : List Pixel)
    (h : ∀ p ∈ ps, ¬ (p.1 = x ∧ p.2.1 = y)) : lastWrite x y ps = none := by
  induction ps with
  | nil => rfl
  | cons p ps ih =>
    have h1 := ih fun q hq => h q (List.mem_cons_of_mem _ hq)
    have h2 := h p (List.mem_cons_self _ _)
    simp [lastWrite, h1, h2]

theorem lastWrite_eq_some (x y : Int) (c : Char) (ps : List Pixel)
    (hex : ∃ p ∈ ps, p.1 = x ∧ p.2.1 = y)
    (hall : ∀ p ∈ ps, p.1 = x ∧ p.2.1 = y → p.2.2 = c) : lastWrite x y ps = some c := by
  induction ps with
  | nil => simp at hex
  | cons p ps ih =>
    by_cases hps : ∃ q ∈ ps, q.1 = x ∧ q.2.1 = y
    · have h1 := ih hps fun q hq => hall q (List.mem_cons_of_mem _ hq)
      simp [lastWrite, h1]
    · have h1 : lastWrite x y ps = none :=
        lastWrite_eq_none x y ps fun q hq hh => hps ⟨q, hq, hh⟩
      obtain ⟨q, hq, hh⟩ := hex
      rcases List.mem_cons.1 hq with rfl | hq
      · have h2 := hall q (List.mem_cons_self _ _) hh
        simp [lastWrite, h1, hh, h2]
      · exact absurd ⟨q, hq, hh⟩ hps

/-- Writes that all lie on the canvas succeed; the size is kept and every cell
holds the glyph of the last write that hit it, or what it held before. -/
theorem DrawPixels_inside (ps : List Pixel) (s : Screen)
    (h : ∀ p ∈ ps, inside s.dim_x s.dim_y p) :
    ∃ s1, s.DrawPixels ps = some s1 ∧ s1.dim_x = s.dim_x ∧ s1.dim_y = s.dim_y ∧
      ∀ x y, s1.cell x y = (lastWrite x y ps).getD (s.cell x y) := by
  induction ps generalizing s with
  | nil => exact ⟨s, rfl, rfl, rfl, fun _ _ => rfl⟩
  | cons p ps ih =>
    have hp : 0 ≤ p.1 ∧ p.1 < s.dim_x ∧ 0 ≤ p.2.1 ∧ p.2.1 < s.dim_y :=
      h p (List.mem_cons_self _ _)
    obtain ⟨s1, h1, hx, hy, hc⟩ :=
      ih { s with cell := fun x1 y1 => if x1 = p.1 ∧ y1 = p.2.1 then p.2.2 else s.cell x1 y1 }
        (fun q hq => h q (List.mem_cons_of_mem _ hq))
    refine ⟨s1, ?_, hx, hy, ?_⟩
    · simp [DrawPixels, DrawPixel, hp, h1]
    · intro x y
      rw [hc x y]
      cases hl : lastWrite x y ps <;> simp [lastWrite, hl]
      by_cases hh : p.1 = x ∧ p.2.1 = y
      · simp [hh]
      · have : ¬ (x = p.1 ∧ y = p.2.1) := fun h3 => hh ⟨h3.1.symm, h3.2.symm⟩
        simp [hh, this]

/-- A cell of the canvas is the character at its column in the row of its line. -/
theorem rows_cell (s : Screen) (x y : Int) (hx0 : 0 ≤ x) (hx : x < s.dim_x) (hy0 : 0 ≤ y)
    (hy : y < s.dim_y) :
    (s.rows[y.toNat]?).bind (fun row => row[x.toNat]?) = some (s.cell x y) := by
  have h1 : y.toNat < s.dim_y.toNat := by omega
  have h2 : x.toNat < s.dim_x.toNat := by omega
  have e1 : ((y.toNat : Nat) : Int) = y := by omega
  have e2 : ((x.toNat : Nat) : Int) = x := by omega
  simp [rows, List.getElem?_map, List.getElem?_range, h1, h2, e1, e2]

theorem mem_textPixels {x y : Int} {text : List Char} {p : Pixel}
    (h : p ∈ textPixels x y text) :
    p.2.1 = y ∧ x ≤ p.1 ∧ p.1 < x + text.length ∧ text[(p.1 - x).toNat]? = some p.2.2 := by
  induction text generalizing x with
  | nil => simp [textPixels] at h
  | cons c text ih =>
    simp only [textPixels, List.mem_cons] at h
    rcases h with rfl | h
    · simp
    · obtain ⟨h1, h2, h3, h4⟩ := ih h
      have h5 : (p.1 - x).toNat = (p.1 - (x + 1)).toNat + 1 := by omega
      refine ⟨h1, by omega, by simp only [List.length_cons]; omega, ?_⟩
      rw [h5, List.getElem?_cons_succ]
      exact h4

theorem textPixels_mem (x y : Int) (text : List Char) (k : Nat) (c : Char)
    (h : text[k]? = some c) : (x + (k : Int), y, c) ∈ textPixels x y text := by
  induction text generalizing x k with
  | nil => simp at h
  | cons d text ih =>
    cases k with
    | zero =>
      simp at h
      simp [textPixels, h]
    | succ k =>
      simp at h
      have := ih (x + 1) k h
      simp only [textPixels, List.mem_cons]
      right
      have e : x + ((k + 1 : Nat) : Int) = x + 1 + (k : Int) := by push_cast; ring
      rw [e]
      exact this

theorem mem_horizontalLinePixels {left right y : Int} {c : Char} {p : Pixel} :
    p ∈ horizontalLinePixels left right y c ↔
      left ≤ p.1 ∧ p.1 ≤ right ∧ p.2.1 = y ∧ p.2.2 = c := by
  obtain ⟨px, py, pc⟩ := p
  simp only [horizontalLinePixels, List.mem_map, List.mem_range, Prod.mk.injEq]
  constructor
  · rintro ⟨k, hk, rfl, rfl, rfl⟩
    exact ⟨by omega, by omega, rfl, rfl⟩
  · rintro ⟨h1, h2, rfl, rfl⟩
    exact ⟨(px - left).toNat, by omega, by omega, rfl, rfl⟩

theorem mem_verticalLinePixels {top bottom x : Int} {c : Char} {p : Pixel} :
    p ∈ verticalLinePixels top bottom x c ↔
      top ≤ p.2.1 ∧ p.2.1 ≤ bottom ∧ p.1 = x ∧ p.2.2 = c := by
  obtain ⟨px, py, pc⟩ := p
  simp only [verticalLinePixels, List.mem_map, List.mem_range, Prod.mk.injEq]
  constructor
  · rintro ⟨k, hk, rfl, rfl, rfl⟩
    exact ⟨by omega, by omega, rfl, rfl⟩
  · rintro ⟨h1, h2, rfl, rfl⟩
    exact ⟨(py - top).toNat, by omega, rfl, by omega, rfl⟩

end Screen

namespace Frame

open Screen

theorem mem_linesPixels {text_x text_y : Int} {y : Nat} {lines : List (List Char)} {p : Pixel}
    (h : p ∈ linesPixels text_x text_y y lines) :
    ∃ i line, lines[i]? = some line ∧
      p ∈ textPixels text_x (text_y + ((y + i : Nat) : Int)) line := by
  induction lines generalizing y with
  | nil => simp [linesPixels] at h
  | cons l lines ih =>
    simp only [linesPixels, List.mem_append] at h
    rcases h with h | h
    · exact ⟨0, l, by simp, by simpa using h⟩
    · obtain ⟨i, line, h1, h2⟩ := ih h
      refine ⟨i + 1, line, by simpa using h1, ?_⟩
      have e : y + (i + 1) = y + 1 + i := by omega
      rw [e]
      exact h2

theorem linesPixels_mem (text_x text_y : Int) (y : Nat) (lines : List (List Char)) (i : Nat)
    (line : List Char) (p : Pixel) (h1 : lines[i]? = some line)
    (h2 : p ∈ textPixels text_x (text_y + ((y + i : Nat) : Int)) line) :
    p ∈ linesPixels text_x text_y y lines := by
  induction lines generalizing y i with
  | nil => simp at h1
  | cons l lines ih =>
    simp only [linesPixels, List.mem_append]
    cases i with
    | zero =>
      simp at h1
      subst h1
      left
      simpa using h2
    | succ i =>
      right
      simp at h1
      apply ih (y + 1) i h1
      have e : y + 1 + i = y + (i + 1) := by omega
      rw [e]
      exact h2

theorem mem_numbersPixels {text_y : Int} {count y : Nat} {p : Pixel} :
    p ∈ numbersPixels text_y count y ↔
      ∃ i, i < count ∧ p ∈ textPixels 1 (text_y + ((y + i : Nat) : Int)) (to_string (y + i + 1)) := by
  induction count generalizing y with
  | zero => simp [numbersPixels]
  | succ count ih =>
    simp only [numbersPixels, List.mem_append, to_wstring, ih]
    constructor
    · rintro (h | ⟨i, hi, h⟩)
      · exact ⟨0, by omega, by simpa using h⟩
      · refine ⟨i + 1, by omega, ?_⟩
        have e : y + (i + 1) = y + 1 + i := by omega
        rw [e]
        exact h
    · rintro ⟨i, hi, h⟩
      cases i with
      | zero => left; simpa using h
      | succ i =>
        right
        refine ⟨i, by omega, ?_⟩
        have e : y + 1 + i = y + (i + 1) := by omega
        rw [e]
        exact h

theorem drawLines_eq (text_x text_y : Int) (y : Nat) (lines : List (List Char)) (s : Screen) :
    drawLines text_x text_y y lines s = s.DrawPixels (linesPixels text_x text_y y lines) := by
  induction lines generalizing y s with
  | nil => rfl
  | cons l lines ih =>
    simp only [drawLines, linesPixels, DrawPixels_append, DrawText]
    congr 1
    funext s1
    exact ih _ _

theorem drawNumbers_eq (text_y : Int) (count y : Nat) (s : Screen) :
    drawNumbers text_y count y s = s.DrawPixels (numbersPixels text_y count y) := by
  induction count generalizing y s with
  | zero => rfl
  | succ count ih =>
    simp only [drawNumbers, numbersPixels, DrawPixels_append, DrawText]
    congr 1
    funext s1
    exact ih _ _

theorem drawBorder_eq (ascii_only : Bool) (g : Geometry) (s : Screen) :
    drawBorder ascii_only g s = s.DrawPixels (borderPixels ascii_only g) := by
  cases ascii_only
  · simp [drawBorder, borderPixels, DrawBox]
  · simp only [drawBorder, borderPixels, DrawPixels_append, DrawHorizontalLine, DrawVerticalLine,
      if_true, bind, Option.bind_assoc]

theorem drawSeparator_eq (line_number ascii_only : Bool) (g : Geometry) (s : Screen) :
    drawSeparator line_number ascii_only g s =
      s.DrawPixels (separatorPixels line_number ascii_only g) := by
  cases line_number <;> cases ascii_only
  · simp [drawSeparator, separatorPixels, DrawPixels]
  · simp [drawSeparator, separatorPixels, DrawPixels]
  · simp only [drawSeparator, separatorPixels, DrawPixels, DrawPixels_append, DrawVerticalLine,
      if_true, bind, Option.bind_assoc]
    simp
  · simp [drawSeparator, separatorPixels, DrawVerticalLine]

theorem paint_eq (line_number ascii_only : Bool) (g : Geometry) (lines : List (List Char)) :
    paint line_number ascii_only g lines =
      (Screen.create g.width g.height).DrawPixels (framePixels line_number ascii_only g lines) := by
  simp only [paint, framePixels, DrawPixels_append, drawLines_eq, drawNumbers_eq, drawBorder_eq,
    drawSeparator_eq, bind, Option.bind_assoc]
  congr 1
  funext s1
  cases line_number <;> simp [DrawPixels]

end Frame

/-! ## Line cutting and geometry -/

theorem getline_length {ss line rest : List Char} (h : getline ss = some (line, rest)) :
    rest.length < ss.length := by
  cases ss with
  | nil => simp [getline] at h
  | cons c cs =>
    simp only [getline, Option.some.injEq, Prod.mk.injEq] at h
    obtain ⟨-, rfl⟩ := h
    have h1 := (List.dropWhile_sublist (fun x => decide (x ≠ '\n')) (l := c :: cs)).length_le
    simp only [List.length_drop, List.length_cons] at h1 ⊢
    omega

namespace Frame

open Screen
theorem readLines_some (fuel : Nat) (ss : List Char) (acc : List (List Char))
    (h : ss.length < fuel) : ∃ lines, readLines fuel ss acc = some lines := by
  induction fuel generalizing ss acc with
  | zero => omega
  | succ fuel ih =>
    cases hg : getline ss with
    | none => exact ⟨acc, by simp [readLines, hg]⟩
    | some r =>
      obtain ⟨line, rest⟩ := r
      have := getline_length hg
      obtain ⟨lines, hl⟩ := ih rest (acc ++ [to_wstring line]) (by omega)
      exact ⟨lines, by simp [readLines, hg, hl]⟩

theorem cutLines_some (input : List Char) : ∃ lines, cutLines input = some lines :=
  readLines_some _ _ _ (Nat.lt_succ_self _)

/-- The digit-count loop, entered with `max_number = 10 ^ d` and `number_length = d`
where every smaller power of ten is at most `n`, exits with the smallest `e` such that
`n < 10 ^ e`, whenever the fuel exceeds the distance from `10 ^ d` to `n + 1`. -/
theorem digitLoop_spec (n fuel d : Nat) (hd : ∀ e, e < d → 10 ^ e ≤ n)
    (hf : n + 1 - 10 ^ d < fuel) :
    ∃ e : Nat, digitLoop (n : Int) fuel ((10 : Int) ^ d) (d : Int) = some ((10 : Int) ^ e, (e : Int)) ∧
      n < 10 ^ e ∧ ∀ k, k < e → 10 ^ k ≤ n := by
  induction fuel generalizing d with
  | zero => omega
  | succ fuel ih =>
    by_cases hle : 10 ^ d ≤ n
    · have hpos : 0 < 10 ^ d := Nat.pow_pos (by norm_num)
      have hstep : 10 ^ (d + 1) = 10 ^ d * 10 := pow_succ 10 d
      obtain ⟨e, h1, h2, h3⟩ := ih (d + 1)
        (fun k hk => by
          rcases Nat.lt_succ_iff_lt_or_eq.1 hk with h | rfl
          · exact hd k h
          · exact hle)
        (by omega)
      refine ⟨e, ?_, h2, h3⟩
      have hc : ((10 : Int) ^ d ≤ (n : Int)) := by exact_mod_cast hle
      have e1 : (10 : Int) ^ d * 10 = (10 : Int) ^ (d + 1) := (pow_succ (10 : Int) d).symm
      have e2 : (d : Int) + 1 = ((d + 1 : Nat) : Int) := by push_cast; rfl
      simp only [digitLoop, hc, if_true, e1, e2]
      exact h1
    · have hc : ¬ ((10 : Int) ^ d ≤ (n : Int)) := by
        intro h
        exact hle (by exact_mod_cast h)
      exact ⟨d, by simp [digitLoop, hc], by omega, hd⟩

theorem number_length_spec (lines : List (List Char)) :
    ∃ e : Nat, number_length lines = some (e : Int) ∧ lines.length < 10 ^ e ∧
      ∀ k, k < e → 10 ^ k ≤ lines.length := by
  obtain ⟨e, h1, h2, h3⟩ := digitLoop_spec lines.length (lines.length + 1) 0
    (fun e he => by omega) (by simp)
  refine ⟨e, ?_, h2, h3⟩
  simp only [pow_zero, Nat.cast_zero] at h1
  simp [number_length, h1]

theorem wrapInt32_eq (v : Int) (h1 : -2147483648 ≤ v) (h2 : v < 2147483648) :
    wrapInt32 v = v := by
  unfold wrapInt32
  omega

/-- Below `10 ^ 9` lines no step of the loop leaves the range of a 32-bit `int`: the
loop in machine arithmetic is the loop on the integers. -/
theorem digitLoop32_eq (n fuel e : Nat) (hn : n < 10 ^ 9) (he : e ≤ 9) :
    digitLoop32 (n : Int) fuel ((10 : Int) ^ e) (e : Int)
      = digitLoop (n : Int) fuel ((10 : Int) ^ e) (e : Int) := by
  induction fuel generalizing e with
  | zero => rfl
  | succ fuel ih =>
    by_cases hle : (10 : Int) ^ e ≤ (n : Int)
    · have hleN : 10 ^ e ≤ n := by exact_mod_cast hle
      have he8 : e + 1 ≤ 9 := by
        by_contra hlt
        have h9 : e = 9 := by omega
        subst h9
        omega
      have hpowN : 10 ^ (e + 1) ≤ 10 ^ 9 := Nat.pow_le_pow_right (by norm_num) he8
      have hpow : (10 : Int) ^ (e + 1) ≤ 1000000000 := by
        have : ((10 ^ (e + 1) : Nat) : Int) ≤ ((10 ^ 9 : Nat) : Int) := by exact_mod_cast hpowN
        simpa using this
      have hpos : (0 : Int) < (10 : Int) ^ (e + 1) := by positivity
      have e1 : (10 : Int) ^ e * 10 = (10 : Int) ^ (e + 1) := (pow_succ (10 : Int) e).symm
      have e2 : (e : Int) + 1 = ((e + 1 : Nat) : Int) := by push_cast; rfl
      have w1 : wrapInt32 ((10 : Int) ^ (e + 1)) = (10 : Int) ^ (e + 1) :=
        wrapInt32_eq _ (by omega) (by omega)
      have w2 : wrapInt32 (((e + 1 : Nat) : Int)) = ((e + 1 : Nat) : Int) :=
        wrapInt32_eq _ (by omega) (by omega)
      simp only [digitLoop32, digitLoop, hle, if_true, e1, e2, w1, w2]
      exact ih (e + 1) he8
    · simp only [digitLoop32, digitLoop, hle, if_false]

theorem number_length32_eq (lines : List (List Char)) (h : lines.length < 10 ^ 9) :
    number_length32 lines = number_length lines := by
  have hw : wrapInt32 (lines.length : Int) = (lines.length : Int) :=
    wrapInt32_eq _ (by omega) (by omega)
  have := digitLoop32_eq lines.length (lines.length + 1) 0 h (by omega)
  simp only [pow_zero, Nat.cast_zero] at this
  rw [number_length32, number_length, hw, this]

theorem text_max_width_foldl (lines : List (List Char)) (acc : Int) :
    acc ≤ lines.foldl (fun a line => max a (line.length : Int)) acc ∧
    (∀ l ∈ lines, (l.length : Int) ≤ lines.foldl (fun a line => max a (line.length : Int)) acc) ∧
    (lines.foldl (fun a line => max a (line.length : Int)) acc = acc ∨
      ∃ l ∈ lines, (l.length : Int) = lines.foldl (fun a line => max a (line.length : Int)) acc) := by
  induction lines generalizing acc with
  | nil => simp
  | cons l lines ih =>
    obtain ⟨h1, h2, h3⟩ := ih (max acc (l.length : Int))
    simp only [List.foldl_cons, List.mem_cons, forall_eq_or_imp, exists_eq_or_imp]
    refine ⟨le_trans (le_max_left _ _) h1, ⟨le_trans (le_max_right _ _) h1, h2⟩, ?_⟩
    rcases h3 with h3 | ⟨m, hm, h3⟩
    · rcases le_total acc (l.length : Int) with h | h
      · right; left
        rw [h3, max_eq_right h]
      · left
        rw [h3, max_eq_left h]
    · exact Or.inr (Or.inr ⟨m, hm, h3⟩)

theorem to_string_length (k e : Nat) (hk : k < 10 ^ e) (he : 0 < e) :
    (to_string k).length ≤ e :=
  Nat.toDigitsCore_length 10 (by norm_num) (k + 1) k e hk he

/-- What `geometry` returns, in the form the painting proofs use. -/
theorem geometry_facts {ln ao : Bool} {lines : List (List Char)} {g : Geometry}
    (hg : geometry ln ao lines = some g) :
    0 ≤ g.number_length ∧
    (∀ i, i < lines.length → ((to_string (i + 1)).length : Int) ≤ g.number_length) ∧
    (∀ l ∈ lines, (l.length : Int) ≤ g.text_max_width) ∧
    0 ≤ g.text_max_width ∧
    g.width = (if ln then g.number_length + g.text_max_width + 3 else g.text_max_width + 2) ∧
    g.height = (lines.length : Int) + 2 + (if ao then 1 else 0) ∧
    g.text_x = (if ln then g.number_length + 2 else 1) ∧
    g.text_y = (if ao then 2 else 1) := by
  obtain ⟨e, h1, h2, h3⟩ := number_length_spec lines
  obtain ⟨m1, m2, -⟩ := text_max_width_foldl lines 0
  have hdig : ∀ i, i < lines.length → ((to_string (i + 1)).length : Int) ≤ (e : Int) := by
    intro i hi
    have he : 0 < e := by
      rcases Nat.eq_zero_or_pos e with h | h
      · subst h
        rw [pow_zero] at h2
        omega
      · exact h
    have := to_string_length (i + 1) e (lt_of_le_of_lt (by omega : i + 1 ≤ lines.length) h2) he
    exact_mod_cast this
  simp only [geometry, h1, Option.map_some', Option.some.injEq] at hg
  subst hg
  cases ln <;> cases ao <;>
    exact ⟨by simp, by simpa using hdig, by simpa [text_max_width] using m2,
      by simpa [text_max_width] using m1, by simp, by simp, by simp, by simp⟩

theorem hit_lines {text_x text_y : Int} {lines : List (List Char)} {p : Pixel}
    (h : p ∈ linesPixels text_x text_y 0 lines) :
    ∃ (i : Nat) (row : List Char), lines[i]? = some row ∧ p.2.1 = text_y + (i : Int) ∧ text_x ≤ p.1 ∧
      p.1 < text_x + (row.length : Int) ∧ row[(p.1 - text_x).toNat]? = some p.2.2 := by
  obtain ⟨i, row, h1, h2⟩ := mem_linesPixels h
  obtain ⟨h3, h4, h5, h6⟩ := mem_textPixels h2
  exact ⟨i, row, h1, by simpa using h3, h4, h5, h6⟩

theorem hit_numbers {text_y : Int} {count : Nat} {p : Pixel}
    (h : p ∈ numbersPixels text_y count 0) :
    ∃ i : Nat, i < count ∧ p.2.1 = text_y + (i : Int) ∧ 1 ≤ p.1 ∧
      p.1 < 1 + ((to_string (i + 1)).length : Int) ∧
      (to_string (i + 1))[(p.1 - 1).toNat]? = some p.2.2 := by
  obtain ⟨i, h1, h2⟩ := mem_numbersPixels.1 h
  obtain ⟨h3, h4, h5, h6⟩ := mem_textPixels h2
  simp only [Nat.zero_add] at h3 h5 h6
  exact ⟨i, h1, h3, h4, h5, h6⟩

theorem hit_border {ao : Bool} {g : Geometry} {p : Pixel} (h : p ∈ borderPixels ao g)
    (hw : 2 ≤ g.width) (hh : 2 ≤ g.height) :
    inside g.width g.height p ∧
      (p.1 = 0 ∨ p.1 = g.width - 1 ∨ p.2.1 = 0 ∨ p.2.1 = g.height - 1) := by
  obtain ⟨px, py, pc⟩ := p
  cases ao
  · simp only [borderPixels, boxPixels, Bool.false_eq_true, if_false, List.mem_append,
      List.mem_cons, List.mem_singleton, List.not_mem_nil, or_false, Prod.mk.injEq,
      mem_horizontalLinePixels, mem_verticalLinePixels] at h
    simp only [inside]
    omega
  · simp only [borderPixels, if_true, List.mem_append,
      mem_horizontalLinePixels, mem_verticalLinePixels] at h
    simp only [inside]
    omega

theorem hit_separator {ln ao : Bool} {g : Geometry} {p : Pixel}
    (h : p ∈ separatorPixels ln ao g) (hh : 1 ≤ g.height) :
    ln = true ∧ p.1 = g.number_length + 1 ∧ 0 ≤ p.2.1 ∧ p.2.1 ≤ g.height - 1 := by
  obtain ⟨px, py, pc⟩ := p
  cases ln <;> cases ao <;>
    simp only [separatorPixels, if_true, if_false, Bool.false_eq_true, List.mem_append,
      List.mem_cons, List.mem_singleton, List.not_mem_nil, Prod.mk.injEq,
      mem_verticalLinePixels] at h
  · refine ⟨rfl, ?_⟩
    dsimp only
    rcases h with ⟨h1, h2, -⟩ | ⟨h1, h2, h3, -⟩ | ⟨h1, h2, -⟩ | h
    · omega
    · omega
    · omega
    · exact h.elim
  · refine ⟨rfl, ?_⟩
    dsimp only
    omega

theorem geometry_some (ln ao : Bool) (lines : List (List Char)) :
    ∃ g, geometry ln ao lines = some g := by
  obtain ⟨e, h1, -⟩ := number_length_spec lines
  simp [geometry, h1]

theorem geometry_size {ln ao : Bool} {lines : List (List Char)} {g : Geometry}
    (hg : geometry ln ao lines = some g) : 2 ≤ g.width ∧ 2 ≤ g.height := by
  obtain ⟨f1, -, -, f4, f5, f6, -, -⟩ := geometry_facts hg
  constructor
  · cases ln <;> simp at f5 <;> omega
  · cases ao <;> simp at f6 <;> omega

/-- Every pixel the draw calls write lies on the canvas the geometry sized. -/
theorem framePixels_inside {ln ao : Bool} {lines : List (List Char)} {g : Geometry}
    (hg : geometry ln ao lines = some g) :
    ∀ p ∈ framePixels ln ao g lines, inside g.width g.height p := by
  obtain ⟨f1, f2, f3, f4, f5, f6, f7, f8⟩ := geometry_facts hg
  obtain ⟨hw, hh⟩ := geometry_size hg
  intro p hp
  simp only [framePixels, List.mem_append] at hp
  rcases hp with ((hp | hp) | hp) | hp
  · obtain ⟨i, row, h1, h2, h3, h4, -⟩ := hit_lines hp
    obtain ⟨hi, -⟩ := List.getElem?_eq_some.1 h1
    have hrow := f3 row (List.getElem?_mem h1)
    simp only [inside]
    cases ln <;> cases ao <;> simp at f5 f6 f7 f8 <;> omega
  · cases ln
    · simp at hp
    · simp only [if_true] at hp
      obtain ⟨i, hi, h2, h3, h4, -⟩ := hit_numbers hp
      have hd := f2 i hi
      simp only [inside]
      cases ao <;> simp at f5 f6 f8 <;> omega
  · exact (hit_border hp hw hh).1
  · obtain ⟨rfl, h1, h2, h3⟩ := hit_separator hp (by omega)
    simp only [inside]
    simp at f5
    omega

/-- Painting succeeds: the canvas has the size of the geometry and every cell holds
the glyph of the last write that hit it, or a space. -/
theorem paint_spec {ln ao : Bool} {lines : List (List Char)} {g : Geometry}
    (hg : geometry ln ao lines = some g) :
    ∃ s, paint ln ao g lines = some s ∧ s.dim_x = g.width ∧ s.dim_y = g.height ∧
      ∀ x y, s.cell x y = (lastWrite x y (framePixels ln ao g lines)).getD ' ' := by
  obtain ⟨s, h1, h2, h3, h4⟩ :=
    DrawPixels_inside (framePixels ln ao g lines) (Screen.create g.width g.height)
      (framePixels_inside hg)
  exact ⟨s, by rw [paint_eq]; exact h1, h2, h3, h4⟩

theorem TranslateScreen_spec (input : List Char) (options : OptionMap) :
    ∃ lines g s, cutLines input = some lines ∧
      geometry (line_number options) (ascii_only options) lines = some g ∧
      TranslateScreen input options = some s ∧
      s.dim_x = g.width ∧ s.dim_y = g.height ∧
      ∀ x y, s.cell x y =
        (lastWrite x y (framePixels (line_number options) (ascii_only options) g lines)).getD ' ' := by
  obtain ⟨lines, hl⟩ := cutLines_some input
  obtain ⟨g, hg⟩ := geometry_some (line_number options) (ascii_only options) lines
  obtain ⟨s, h1, h2, h3, h4⟩ := paint_spec hg
  exact ⟨lines, g, s, hl, hg, by simp [TranslateScreen, hl, hg, h1], h2, h3, h4⟩

/-- The text cell of character `j` of line `i` is written once, by the text loop. -/
theorem text_cell {ln ao : Bool} {lines : List (List Char)} {g : Geometry}
    (hg : geometry ln ao lines = some g) (i j : Nat) (row : List Char) (c : Char)
    (hi : lines[i]? = some row) (hj : row[j]? = some c) :
    lastWrite (g.text_x + (j : Int)) (g.text_y + (i : Int)) (framePixels ln ao g lines)
      = some c := by
  obtain ⟨f1, f2, f3, f4, f5, f6, f7, f8⟩ := geometry_facts hg
  obtain ⟨hw, hh⟩ := geometry_size hg
  obtain ⟨hil, -⟩ := List.getElem?_eq_some.1 hi
  obtain ⟨hjl, -⟩ := List.getElem?_eq_some.1 hj
  have hrow := f3 row (List.getElem?_mem hi)
  apply lastWrite_eq_some
  · refine ⟨(g.text_x + (j : Int), g.text_y + (i : Int), c), ?_, rfl, rfl⟩
    simp only [framePixels, List.mem_append]
    left; left; left
    exact linesPixels_mem _ _ 0 lines i row _ hi (by simpa using textPixels_mem _ _ row j c hj)
  · intro p hp hit
    simp only [framePixels, List.mem_append] at hp
    rcases hp with ((hp | hp) | hp) | hp
    · obtain ⟨i2, row2, h1, h2, h3, h4, h5⟩ := hit_lines hp
      have e1 : i2 = i := by omega
      subst e1
      rw [hi] at h1
      obtain rfl := Option.some.inj h1
      have e2 : (p.1 - g.text_x).toNat = j := by omega
      rw [e2, hj] at h5
      exact (Option.some.inj h5).symm
    · exfalso
      cases ln
      · simp at hp
      · simp only [if_true] at hp
        obtain ⟨i2, hi2, h2, h3, h4, -⟩ := hit_numbers hp
        have hd := f2 i2 hi2
        simp at f7
        omega
    · exfalso
      have hb := (hit_border hp hw hh).2
      cases ln <;> cases ao <;> simp at f5 f6 f7 f8 <;> omega
    · exfalso
      obtain ⟨rfl, h1, h2, h3⟩ := hit_separator hp (by omega)
      simp at f7
      omega

/-- The gutter cell of digit `k` of line number `i + 1` is written once, by the
line-number loop. -/
theorem number_cell {ao : Bool} {lines : List (List Char)} {g : Geometry}
    (hg : geometry true ao lines = some g) (i k : Nat) (c : Char)
    (hi : i < lines.length) (hk : (to_string (i + 1))[k]? = some c) :
    lastWrite (1 + (k : Int)) (g.text_y + (i : Int)) (framePixels true ao g lines) = some c := by
  obtain ⟨f1, f2, f3, f4, f5, f6, f7, f8⟩ := geometry_facts hg
  obtain ⟨hw, hh⟩ := geometry_size hg
  obtain ⟨hkl, -⟩ := List.getElem?_eq_some.1 hk
  have hd := f2 i hi
  simp only [if_true] at f5 f7
  apply lastWrite_eq_some
  · refine ⟨(1 + (k : Int), g.text_y + (i : Int), c), ?_, rfl, rfl⟩
    simp only [framePixels, List.mem_append, if_true]
    left; left; right
    exact mem_numbersPixels.2 ⟨i, hi, by simpa using textPixels_mem 1 _ _ k c hk⟩
  · intro p hp hit
    simp only [framePixels, List.mem_append, if_true] at hp
    rcases hp with ((hp | hp) | hp) | hp
    · exfalso
      obtain ⟨i2, row2, h1, h2, h3, h4, h5⟩ := hit_lines hp
      omega
    · obtain ⟨i2, hi2, h2, h3, h4, h5⟩ := hit_numbers hp
      have e1 : i2 = i := by omega
      subst e1
      have e2 : (p.1 - 1).toNat = k := by omega
      rw [e2, hk] at h5
      exact (Option.some.inj h5).symm
    · exfalso
      have hb := (hit_border hp hw hh).2
      cases ao <;> simp at f6 f8 <;> omega
    · exfalso
      obtain ⟨-, h1, h2, h3⟩ := hit_separator hp (by omega)
      omega

theorem geometry_fields {ln ao : Bool} {lines : List (List Char)} {g : Geometry}
    (hg : geometry ln ao lines = some g) :
    number_length lines = some g.number_length ∧ g.text_max_width = text_max_width lines := by
  obtain ⟨e, h1, -⟩ := number_length_spec lines
  simp only [geometry, h1, Option.map_some', Option.some.injEq] at hg
  subst hg
  cases ln <;> exact ⟨by simpa using h1, by simp⟩

theorem digits_length_eq (n e : Nat) (h2 : n < 10 ^ e) (h3 : ∀ k, k < e → 10 ^ k ≤ n) :
    (Nat.digits 10 n).length = e := by
  have hL : n < 10 ^ (Nat.digits 10 n).length := Nat.lt_base_pow_length_digits (by norm_num)
  apply le_antisymm
  · by_contra hlt
    have hlt : e + 1 ≤ (Nat.digits 10 n).length := by omega
    have hn : n ≠ 0 := by
      rintro rfl
      simp at hlt
    have h5 := Nat.base_pow_length_digits_le 10 n (by norm_num) hn
    have h6 : 10 ^ (e + 1) ≤ 10 ^ (Nat.digits 10 n).length :=
      Nat.pow_le_pow_right (by norm_num) hlt
    have h7 : 10 ^ (e + 1) = 10 ^ e * 10 := pow_succ 10 e
    omega
  · by_contra hlt
    have := h3 _ (by omega : (Nat.digits 10 n).length < e)
    omega

/-- C1: for every input and option map, `Translate` returns the serialised canvas in
which every character `j` of every input line `i` sits in the cell
`(text_x + j, text_y + i)`, that is at column `text_x + j` of row `text_y + i` of the
output, with `text_x = number_length + 2` with line numbers and `1` without, and
`text_y = 2` in ASCII mode and `1` otherwise: no later draw overwrites a text
character. -/
theorem text_lines_preserved (input : List Char) (options : OptionMap) :
    ∃ lines g screen, cutLines input = some lines ∧
      geometry (line_number options) (ascii_only options) lines = some g ∧
      TranslateScreen input options = some screen ∧
      Translate input options = some (List.intercalate ['\n'] screen.rows) ∧
      number_length lines = some g.number_length ∧
      g.text_x = (if line_number options then g.number_length + 2 else 1) ∧
      g.text_y = (if ascii_only options then 2 else 1) ∧
      ∀ (i : Fin lines.length) (j : Fin (lines.get i).length),
        screen.cell (g.text_x + ((j : Nat) : Int)) (g.text_y + ((i : Nat) : Int))
            = (lines.get i).get j ∧
          (screen.rows[(g.text_y + ((i : Nat) : Int)).toNat]?).bind
              (fun row => row[(g.text_x + ((j : Nat) : Int)).toNat]?)
            = some ((lines.get i).get j) := by
  obtain ⟨lines, g, s, hl, hg, hs, hx, hy, hc⟩ := TranslateScreen_spec input options
  obtain ⟨f1, f2, f3, f4, f5, f6, f7, f8⟩ := geometry_facts hg
  refine ⟨lines, g, s, hl, hg, hs, by simp [Translate, hs, Screen.ToString],
    (geometry_fields hg).1, f7, f8, ?_⟩
  intro i j
  have hi : lines[(i : Nat)]? = some (lines.get i) := by
    rw [List.get_eq_getElem]
    exact List.getElem?_eq_getElem i.2
  have hj : (lines.get i)[(j : Nat)]? = some ((lines.get i).get j) := by
    rw [List.get_eq_getElem (lines.get i) j]
    exact List.getElem?_eq_getElem j.2
  have hw := text_cell hg i j _ _ hi hj
  have hrow := f3 _ (List.getElem?_mem hi)
  have hjl := j.2
  have hil := i.2
  have hcell : s.cell (g.text_x + ((j : Nat) : Int)) (g.text_y + ((i : Nat) : Int))
      = (lines.get i).get j := by
    rw [hc, hw]
    rfl
  have hin : 0 ≤ g.text_x + ((j : Nat) : Int) ∧ g.text_x + ((j : Nat) : Int) < s.dim_x ∧
      0 ≤ g.text_y + ((i : Nat) : Int) ∧ g.text_y + ((i : Nat) : Int) < s.dim_y := by
    rw [hx, hy]
    cases hln : line_number options <;> cases hao : ascii_only options <;>
      simp [hln, hao] at f5 f6 f7 f8 <;> omega
  refine ⟨hcell, ?_⟩
  rw [Screen.rows_cell s _ _ hin.1 hin.2.1 hin.2.2.1 hin.2.2.2, hcell]

/-- C3 (as amended): for every input and option map, the canvas is `width` columns
wide, where `width = number_length + text_max_width + 3` with line numbers and
`text_max_width + 2` without; `text_max_width` is the largest character count of a
line (0 when there is none) and, for an input of fewer than `10 ^ 9` lines,
`number_length` is the number of decimal digits of the line count, also when the loop
runs in 32-bit arithmetic. -/
theorem canvas_width (input : List Char) (options : OptionMap) :
    ∃ lines g screen, cutLines input = some lines ∧
      geometry (line_number options) (ascii_only options) lines = some g ∧
      TranslateScreen input options = some screen ∧
      screen.dim_x = g.width ∧
      g.width = (if line_number options then g.number_length + g.text_max_width + 3
                 else g.text_max_width + 2) ∧
      (∀ l ∈ lines, (l.length : Int) ≤ g.text_max_width) ∧
      (lines = [] → g.text_max_width = 0) ∧
      (lines ≠ [] → ∃ l ∈ lines, (l.length : Int) = g.text_max_width) ∧
      (lines.length < 10 ^ 9 →
        number_length32 lines = some g.number_length ∧
        g.number_length = ((Nat.digits 10 lines.length).length : Int)) := by
  obtain ⟨lines, g, s, hl, hg, hs, hx, hy, hc⟩ := TranslateScreen_spec input options
  obtain ⟨f1, f2, f3, f4, f5, f6, f7, f8⟩ := geometry_facts hg
  obtain ⟨n1, n2⟩ := geometry_fields hg
  obtain ⟨m1, m2, m3⟩ := text_max_width_foldl lines 0
  obtain ⟨e, e1, e2, e3⟩ := number_length_spec lines
  refine ⟨lines, g, s, hl, hg, hs, hx, f5, f3, ?_, ?_, ?_⟩
  · rintro rfl
    rw [n2]
    rfl
  · intro hne
    rw [n2]
    rcases m3 with m3 | m3
    · obtain ⟨l, ls, rfl⟩ := List.exists_cons_of_ne_nil hne
      have h0 := m2 l (List.mem_cons_self _ _)
      rw [m3] at h0
      have hlen : l.length = 0 := by omega
      exact ⟨l, List.mem_cons_self _ _, by rw [text_max_width, m3, hlen]; rfl⟩
    · exact m3
  · intro hlt
    refine ⟨by rw [number_length32_eq lines hlt, n1], ?_⟩
    rw [n1] at e1
    rw [Option.some.inj e1, digits_length_eq lines.length e e2 e3]

/-- C3 (counterexample): an input of 1410065408 empty lines has a line count of 10
decimal digits, but the `number_length` that enters the width is 16 when the loop
runs in the 32-bit arithmetic of the source. -/
theorem number_length_not_digit_count_at_1410065408 :
    (List.replicate 1410065408 ([] : List Char)).length = 1410065408 ∧
      (Nat.digits 10 1410065408).length = 10 ∧
      number_length32 (List.replicate 1410065408 []) = some 16 ∧
      number_length32 (List.replicate 1410065408 [])
        ≠ some (((Nat.digits 10 1410065408).length : Nat) : Int) := by
  have hd : (Nat.digits 10 1410065408).length = 10 :=
    digits_length_eq 1410065408 10 (by norm_num) (fun k hk =>
      le_trans (Nat.pow_le_pow_right (by norm_num) (by omega : k ≤ 9)) (by norm_num))
  have h16 : number_length32 (List.replicate 1410065408 []) = some 16 := by
    rw [number_length32, List.length_replicate]
    decide
  refine ⟨List.length_replicate _ _, hd, h16, ?_⟩
  rw [hd, h16]
  decide

/-- C4: for every input and option map, the canvas is `height` rows high, where
`height` is the number of lines plus 2, plus 1 in ASCII mode; the value is the same
with and without line numbers. -/
theorem canvas_height (input : List Char) (options : OptionMap) :
    ∃ lines g screen, cutLines input = some lines ∧
      geometry (line_number options) (ascii_only options) lines = some g ∧
      TranslateScreen input options = some screen ∧
      screen.dim_y = g.height ∧
      g.height = (lines.length : Int) + 2 + (if ascii_only options then 1 else 0) ∧
      ∀ ln : Bool, ∃ g2, geometry ln (ascii_only options) lines = some g2 ∧
        g2.height = g.height := by
  obtain ⟨lines, g, s, hl, hg, hs, hx, hy, hc⟩ := TranslateScreen_spec input options
  obtain ⟨f1, f2, f3, f4, f5, f6, f7, f8⟩ := geometry_facts hg
  refine ⟨lines, g, s, hl, hg, hs, hy, f6, ?_⟩
  intro ln
  obtain ⟨g2, hg2⟩ := geometry_some ln (ascii_only options) lines
  exact ⟨g2, hg2, by rw [(geometry_facts hg2).2.2.2.2.2.1, f6]⟩

/-- C5 (as amended): for every line count `n < 10 ^ 9` the digit-count loop, run in
32-bit arithmetic from `max_number = 1` and `number_length = 0`, exits whenever it is
given more than `n` rounds, with `number_length` the smallest `d` such that
`10 ^ d > n`; this is the `number_length` of every list of `n` lines, and it is 0 for
0 lines, 1 for 9 lines and 2 for 10. -/
theorem number_length_smallest_power (n : Nat) (hn : n < 10 ^ 9) :
    (∃ d : Nat,
      (∀ fuel : Nat, n < fuel →
        digitLoop32 (n : Int) fuel 1 0 = some ((10 : Int) ^ d, (d : Int))) ∧
      n < 10 ^ d ∧ (∀ e : Nat, n < 10 ^ e → d ≤ e) ∧
      ∀ lines : List (List Char), lines.length = n →
        number_length32 lines = some (d : Int) ∧ number_length lines = some (d : Int)) ∧
    number_length32 [] = some 0 ∧
    number_length32 (List.replicate 9 []) = some 1 ∧
    number_length32 (List.replicate 10 []) = some 2 := by
  refine ⟨?_, by decide, by decide, by decide⟩
  obtain ⟨d, h1, h2, h3⟩ := digitLoop_spec n (n + 1) 0 (fun e he => by omega) (by simp)
  refine ⟨d, ?_, h2, ?_, ?_⟩
  · intro fuel hf
    obtain ⟨d2, k1, k2, k3⟩ := digitLoop_spec n fuel 0 (fun e he => by omega) (by simp; omega)
    have : d2 = d := by
      apply le_antisymm
      · by_contra hlt
        have := k3 d (by omega)
        omega
      · by_contra hlt
        have := h3 d2 (by omega)
        omega
    subst this
    have h32 := digitLoop32_eq n fuel 0 hn (by omega)
    simp only [pow_zero, Nat.cast_zero] at h32 k1
    rw [h32]
    exact k1
  · intro e he
    by_contra hlt
    have := h3 e (by omega)
    omega
  · rintro lines rfl
    simp only [pow_zero, Nat.cast_zero] at h1
    have hu : number_length lines = some (d : Int) := by simp [number_length, h1]
    exact ⟨by rw [number_length32_eq lines hn, hu], hu⟩

/-- C5 (as amended) at 10 lines. -/
theorem number_length_smallest_power_witness :
    (10 : Nat) < 10 ^ 9 ∧
    ((∃ d : Nat,
      (∀ fuel : Nat, 10 < fuel →
        digitLoop32 ((10 : Nat) : Int) fuel 1 0 = some ((10 : Int) ^ d, (d : Int))) ∧
      10 < 10 ^ d ∧ (∀ e : Nat, 10 < 10 ^ e → d ≤ e) ∧
      ∀ lines : List (List Char), lines.length = 10 →
        number_length32 lines = some (d : Int) ∧ number_length lines = some (d : Int)) ∧
    number_length32 [] = some 0 ∧
    number_length32 (List.replicate 9 []) = some 1 ∧
    number_length32 (List.replicate 10 []) = some 2) :=
  ⟨by norm_num, number_length_smallest_power 10 (by norm_num)⟩

/-- C5 (counterexample): for 1410065408 lines, a count a 32-bit `int` holds, the
smallest `d` with `10 ^ d > n` is 10, but the loop multiplies `10 ^ 9` by 10, which
leaves the range: in 32-bit arithmetic `max_number` wraps to 1410065408 and the loop
only exits with `number_length = 16`. -/
theorem digit_loop_wraps_at_1410065408 :
    (1410065408 : Int) ≤ 2147483647 ∧
      (1410065408 : Nat) < 10 ^ 10 ∧ 10 ^ 9 ≤ (1410065408 : Nat) ∧
      wrapInt32 ((10 : Int) ^ 9 * 10) = 1410065408 ∧
      digitLoop32 1410065408 1410065409 1 0 = some (1874919424, 16) ∧
      number_length32 (List.replicate 1410065408 []) = some 16 := by
  refine ⟨by decide, by norm_num, by norm_num, by decide, by decide, ?_⟩
  rw [number_length32, List.length_replicate]
  decide

theorem lookup_other (k key value : String) (entries : List (String × String))
    (h : key ≠ k) : List.lookup k ((key, value) :: entries) = List.lookup k entries := by
  have e : (k == key) = false := by simpa using fun e => h e.symm
  simp [List.lookup, e]

/-- C6: for every option map, `ascii_only` is true exactly when the key `ascii_only`
is stored with the value `true`, and `line_number` is false exactly when the key
`line_number` is stored with the value `false`; a missing key leaves the default, an
entry under any other key changes neither flag, and `at` is only reached for a key
that is present. -/
theorem option_resolution (options : OptionMap) :
    (ascii_only options = true ↔ options.value "ascii_only" = some "true") ∧
    (line_number options = false ↔ options.value "line_number" = some "false") ∧
    (options.value "ascii_only" = none → ascii_only options = false) ∧
    (options.value "line_number" = none → line_number options = true) ∧
    (∀ key : String, options.count key ≠ 0 → (options.value key).isSome = true) ∧
    (∀ key value : String, key ≠ "ascii_only" → key ≠ "line_number" →
      ascii_only ⟨(key, value) :: options.entries⟩ = ascii_only options ∧
      line_number ⟨(key, value) :: options.entries⟩ = line_number options) := by
  refine ⟨?_, ?_, ?_, ?_, ?_, ?_⟩
  · simp only [ascii_only, OptionMap.count, OptionMap.value]
    constructor
    · intro h
      by_contra hne
      simp [hne] at h
    · intro h
      simp [h]
  · simp only [line_number, OptionMap.count, OptionMap.value]
    constructor
    · intro h
      by_contra hne
      simp [hne] at h
    · intro h
      simp [h]
  · intro h
    simp only [OptionMap.value] at h
    simp [ascii_only, OptionMap.count, OptionMap.value, h]
  · intro h
    simp only [OptionMap.value] at h
    simp [line_number, OptionMap.count, OptionMap.value, h]
  · intro key h
    simp only [OptionMap.count, OptionMap.value] at h ⊢
    cases hk : List.lookup key options.entries <;> simp [hk] at h ⊢
  · intro key value h1 h2
    have e1 := lookup_other "ascii_only" key value options.entries h1
    have e2 := lookup_other "line_number" key value options.entries h2
    simp only [ascii_only, line_number, OptionMap.count, OptionMap.value, e1, e2]
    exact ⟨trivial, trivial⟩

/-- C2: with `ascii_only=true` the one-line ASCII input `a` is rendered with the
vertical box-drawing bar, which is not an ASCII character, in the side columns, with
line numbers and without; only the separator is drawn with the ASCII bar. -/
theorem ascii_only_side_columns_not_ascii :
    Translate ['a'] ⟨[("ascii_only", "true")]⟩
        = some " ___ \n│ | │\n│1|a│\n│_|_│".toList ∧
      Translate ['a'] ⟨[("ascii_only", "true"), ("line_number", "false")]⟩
        = some " _ \n│ │\n│a│\n│_│".toList ∧
      ascii_only ⟨[("ascii_only", "true")]⟩ = true ∧
      ('a').toNat < 128 ∧ ¬ (Screen.defaultVerticalGlyph.toNat < 128) := by
  refine ⟨by decide, by decide, by decide, by decide, by decide⟩

/-- C7: for every input and option map, the draw calls of `Translate` write exactly
the pixels of `framePixels` (text, line numbers, border, separator, in this order);
each of them has `0 ≤ x < width` and `0 ≤ y < height`, and the bounds-checked canvas
of that size is painted without reaching the out-of-range branch. -/
theorem draws_inside_canvas (input : List Char) (options : OptionMap) :
    ∃ lines g screen, cutLines input = some lines ∧
      geometry (line_number options) (ascii_only options) lines = some g ∧
      paint (line_number options) (ascii_only options) g lines
        = (Screen.create g.width g.height).DrawPixels
            (framePixels (line_number options) (ascii_only options) g lines) ∧
      (∀ p ∈ framePixels (line_number options) (ascii_only options) g lines,
        0 ≤ p.1 ∧ p.1 < g.width ∧ 0 ≤ p.2.1 ∧ p.2.1 < g.height) ∧
      TranslateScreen input options = some screen ∧
      screen.dim_x = g.width ∧ screen.dim_y = g.height := by
  obtain ⟨lines, g, s, hl, hg, hs, hx, hy, -⟩ := TranslateScreen_spec input options
  exact ⟨lines, g, s, hl, hg, paint_eq _ _ _ _, framePixels_inside hg, hs, hx, hy⟩

/-- C8: with line numbers enabled, for every input `Translate` returns a canvas in
which, for every line index `i`, digit `k` of the decimal string of `i + 1` sits in
the cell `(1 + k, text_y + i)`, that is at column `1 + k` of row `text_y + i` of the
output; the digit columns lie left of the separator column `number_length + 1`, so
neither the border nor the separator overwrites a digit. -/
theorem line_numbers_preserved (input : List Char) (options : OptionMap)
    (hnum : line_number options = true) :
    ∃ lines g screen, cutLines input = some lines ∧
      geometry (line_number options) (ascii_only options) lines = some g ∧
      TranslateScreen input options = some screen ∧
      g.text_y = (if ascii_only options then 2 else 1) ∧
      ∀ (i : Fin lines.length) (k : Fin (to_string ((i : Nat) + 1)).length),
        screen.cell (1 + ((k : Nat) : Int)) (g.text_y + ((i : Nat) : Int))
            = (to_string ((i : Nat) + 1)).get k ∧
          (screen.rows[(g.text_y + ((i : Nat) : Int)).toNat]?).bind
              (fun row => row[(1 + ((k : Nat) : Int)).toNat]?)
            = some ((to_string ((i : Nat) + 1)).get k) ∧
          1 + ((k : Nat) : Int) < g.number_length + 1 ∧ g.number_length + 1 < screen.dim_x := by
  obtain ⟨lines, g, s, hl, hg, hs, hx, hy, hc⟩ := TranslateScreen_spec input options
  obtain ⟨f1, f2, f3, f4, f5, f6, f7, f8⟩ := geometry_facts hg
  refine ⟨lines, g, s, hl, hg, hs, f8, ?_⟩
  intro i k
  have hk : (to_string ((i : Nat) + 1))[(k : Nat)]? = some ((to_string ((i : Nat) + 1)).get k) := by
    rw [List.get_eq_getElem]
    exact List.getElem?_eq_getElem k.2
  have hg2 := hg
  rw [hnum] at hg2
  have hw := number_cell hg2 i k _ i.2 hk
  have hd := f2 i i.2
  have hkl := k.2
  have hil := i.2
  have hcell : s.cell (1 + ((k : Nat) : Int)) (g.text_y + ((i : Nat) : Int))
      = (to_string ((i : Nat) + 1)).get k := by
    rw [hc, hnum, hw]
    rfl
  rw [hnum] at f5
  have hin : 1 + ((k : Nat) : Int) < g.number_length + 1 ∧ g.number_length + 1 < s.dim_x ∧
      0 ≤ g.text_y + ((i : Nat) : Int) ∧ g.text_y + ((i : Nat) : Int) < s.dim_y := by
    rw [hx, hy]
    cases hao : ascii_only options <;> simp [hao] at f5 f6 f8 <;> omega
  refine ⟨hcell, ?_, hin.1, hin.2.1⟩
  rw [Screen.rows_cell s _ _ (by omega) (by omega) hin.2.2.1 hin.2.2.2, hcell]

/-- C8 at the input `a`, line break, `bb` with the default options. -/
theorem line_numbers_preserved_witness :
    line_number ⟨[]⟩ = true ∧
    ∃ lines g screen, cutLines ['a', '\n', 'b', 'b'] = some lines ∧
      geometry (line_number ⟨[]⟩) (ascii_only ⟨[]⟩) lines = some g ∧
      TranslateScreen ['a', '\n', 'b', 'b'] ⟨[]⟩ = some screen ∧
      g.text_y = (if ascii_only ⟨[]⟩ then 2 else 1) ∧
      ∀ (i : Fin lines.length) (k : Fin (to_string ((i : Nat) + 1)).length),
        screen.cell (1 + ((k : Nat) : Int)) (g.text_y + ((i : Nat) : Int))
            = (to_string ((i : Nat) + 1)).get k ∧
          (screen.rows[(g.text_y + ((i : Nat) : Int)).toNat]?).bind
              (fun row => row[(1 + ((k : Nat) : Int)).toNat]?)
            = some ((to_string ((i : Nat) + 1)).get k) ∧
          1 + ((k : Nat) : Int) < g.number_length + 1 ∧ g.number_length + 1 < screen.dim_x :=
  ⟨by decide, line_numbers_preserved ['a', '\n', 'b', 'b'] ⟨[]⟩ (by decide)⟩

/-- C9: the input `a`, line break, `bb` with the default options (no entry in the
option map: line numbers, box-drawing border) gives a canvas of height 4 and width 6
whose rows are `┌─┬──┐`, `│1│a │`, `│2│bb│`, `└─┴──┘`, with the junctions `┬` and
`┴` in column 2 of the first and the last row. -/
theorem default_options_scenario :
    line_number ⟨[]⟩ = true ∧ ascii_only ⟨[]⟩ = false ∧
      (TranslateScreen "a\nbb".toList ⟨[]⟩).map Screen.dim_y = some 4 ∧
      (TranslateScreen "a\nbb".toList ⟨[]⟩).map Screen.dim_x = some 6 ∧
      (TranslateScreen "a\nbb".toList ⟨[]⟩).map Screen.rows
        = some ["┌─┬──┐".toList, "│1│a │".toList, "│2│bb│".toList, "└─┴──┘".toList] ∧
      (TranslateScreen "a\nbb".toList ⟨[]⟩).map (fun s => s.cell 2 0) = some '┬' ∧
      (TranslateScreen "a\nbb".toList ⟨[]⟩).map (fun s => s.cell 2 3) = some '┴' ∧
      Translate "a\nbb".toList ⟨[]⟩ = some "┌─┬──┐\n│1│a │\n│2│bb│\n└─┴──┘".toList := by
  refine ⟨by decide, by decide, by decide, by decide, by decide, by decide, by decide, by decide⟩

/-- C10: the input `a`, line break, `bb` with `ascii_only=true` and
`line_number=false` gives a canvas of height 5 and width 4; columns 1 and 2 of rows 0
and 4 hold `_`, rows 1 to 3 of columns 0 and 3 hold the vertical bar of the canvas,
and the text starts in column 1 of rows 2 and 3, with no gutter. The corner cells of
row 0 stay blank and those of row 4 hold the vertical bar. -/
theorem ascii_scenario :
    ascii_only ⟨[("ascii_only", "true"), ("line_number", "false")]⟩ = true ∧
      line_number ⟨[("ascii_only", "true"), ("line_number", "false")]⟩ = false ∧
      (TranslateScreen "a\nbb".toList ⟨[("ascii_only", "true"), ("line_number", "false")]⟩).map
        (fun s => (s.dim_y, s.dim_x)) = some (5, 4) ∧
      (TranslateScreen "a\nbb".toList ⟨[("ascii_only", "true"), ("line_number", "false")]⟩).map
        (fun s => [s.cell 1 0, s.cell 2 0, s.cell 1 4, s.cell 2 4]) = some ['_', '_', '_', '_'] ∧
      (TranslateScreen "a\nbb".toList ⟨[("ascii_only", "true"), ("line_number", "false")]⟩).map
        (fun s => [s.cell 0 1, s.cell 0 2, s.cell 0 3, s.cell 3 1, s.cell 3 2, s.cell 3 3])
        = some (List.replicate 6 Screen.defaultVerticalGlyph) ∧
      (TranslateScreen "a\nbb".toList ⟨[("ascii_only", "true"), ("line_number", "false")]⟩).map
        (fun s => [s.cell 1 2, s.cell 1 3, s.cell 2 3]) = some ['a', 'b', 'b'] ∧
      (TranslateScreen "a\nbb".toList ⟨[("ascii_only", "true"), ("line_number", "false")]⟩).map
        Screen.rows
        = some [" __ ".toList, "│  │".toList, "│a │".toList, "│bb│".toList, "│__│".toList] := by
  refine ⟨by decide, by decide, by decide, by decide, by decide, by decide, by decide⟩

theorem TranslateScreen_flags (input : List Char) (options : OptionMap) (ln ao : Bool)
    (hln : line_number options = ln) (hao : ascii_only options = ao) :
    TranslateScreen input options
      = (cutLines input).bind fun lines =>
          (geometry ln ao lines).bind fun g => paint ln ao g lines := by
  subst hln hao
  rfl

/-- The padding cell `j` of line `i`, right of the line's last character, is written
by no draw call. -/
theorem padding_cell {ln ao : Bool} {lines : List (List Char)} {g : Geometry}
    (hg : geometry ln ao lines = some g) (i j : Nat) (row : List Char)
    (hi : lines[i]? = some row) (hj1 : row.length ≤ j) (hj2 : (j : Int) < g.text_max_width) :
    ∀ p ∈ framePixels ln ao g lines,
      ¬ (p.1 = g.text_x + (j : Int) ∧ p.2.1 = g.text_y + (i : Int)) := by
  obtain ⟨f1, f2, f3, f4, f5, f6, f7, f8⟩ := geometry_facts hg
  obtain ⟨hw, hh⟩ := geometry_size hg
  obtain ⟨hil, -⟩ := List.getElem?_eq_some.1 hi
  intro p hp hit
  simp only [framePixels, List.mem_append] at hp
  rcases hp with ((hp | hp) | hp) | hp
  · obtain ⟨i2, row2, h1, h2, h3, h4, h5⟩ := hit_lines hp
    have e1 : i2 = i := by omega
    subst e1
    rw [hi] at h1
    obtain rfl := Option.some.inj h1
    omega
  · cases ln
    · simp at hp
    · simp only [if_true] at hp
      obtain ⟨i2, hi2, h2, h3, h4, -⟩ := hit_numbers hp
      have hd := f2 i2 hi2
      simp at f7
      omega
  · have hb := (hit_border hp hw hh).2
    cases ln <;> cases ao <;> simp at f5 f6 f7 f8 <;> omega
  · obtain ⟨rfl, h1, h2, h3⟩ := hit_separator hp (by omega)
    simp at f7
    omega

/-- C11 (as amended): for the empty input and every option map, `Translate` returns
a canvas of height 2, plus 1 in ASCII mode, and of width 2 without line numbers and 3
with them (`number_length = 0` and the separator column); no text or number pixel is
written, only the border and, with line numbers, the separator. -/
theorem empty_input_frame (options : OptionMap) :
    ∃ g screen, cutLines [] = some [] ∧
      geometry (line_number options) (ascii_only options) [] = some g ∧
      TranslateScreen [] options = some screen ∧
      screen.dim_x = g.width ∧ screen.dim_y = g.height ∧
      g.height = 2 + (if ascii_only options then 1 else 0) ∧
      g.width = (if line_number options then 3 else 2) ∧
      framePixels (line_number options) (ascii_only options) g []
        = borderPixels (ascii_only options) g
            ++ separatorPixels (line_number options) (ascii_only options) g ∧
      screen.rows =
        (match line_number options, ascii_only options with
          | true, false => ["┌┬┐".toList, "└┴┘".toList]
          | false, false => ["┌┐".toList, "└┘".toList]
          | true, true => [" _ ".toList, "│|│".toList, "│|│".toList]
          | false, true => ["  ".toList, "││".toList, "││".toList]) := by
  have hcut : cutLines [] = some [] := by decide
  obtain ⟨lines, g, s, hl, hg, hs, hx, hy, -⟩ := TranslateScreen_spec [] options
  rw [hcut] at hl
  obtain rfl := Option.some.inj hl
  obtain ⟨-, -, -, -, f5, f6, -, -⟩ := geometry_facts hg
  obtain ⟨n1, n2⟩ := geometry_fields hg
  have hnl : g.number_length = 0 := by
    have h0 : number_length [] = some 0 := by decide
    rw [h0] at n1
    exact (Option.some.inj n1).symm
  have htm : g.text_max_width = 0 := by rw [n2]; rfl
  refine ⟨g, s, hcut, hg, hs, hx, hy, ?_, ?_, ?_, ?_⟩
  · rw [f6]
    simp
  · rw [f5, hnl, htm]
    cases line_number options <;> simp
  · cases line_number options <;> simp [framePixels, linesPixels, numbersPixels]
  · have key := TranslateScreen_flags [] options _ _ rfl rfl
    rw [hs] at key
    have hrows : some s.rows = ((cutLines []).bind fun lines =>
        (geometry (line_number options) (ascii_only options) lines).bind fun g =>
          paint (line_number options) (ascii_only options) g lines).map Screen.rows := by
      rw [← key]
      rfl
    apply Option.some.inj
    rw [hrows]
    cases line_number options <;> cases ascii_only options <;> decide

/-- C11 (counterexample): with the default options (line numbers on) the empty input
gives a canvas of width 3, not 2: the separator column stays between the borders. -/
theorem empty_input_default_width_three :
    line_number ⟨[]⟩ = true ∧
      (TranslateScreen [] ⟨[]⟩).map Screen.dim_x = some 3 ∧
      (TranslateScreen [] ⟨[]⟩).map Screen.dim_x ≠ some 2 ∧
      (TranslateScreen [] ⟨[]⟩).map Screen.rows = some ["┌┬┐".toList, "└┴┘".toList] := by
  refine ⟨by decide, by decide, by decide, by decide⟩

/-- C13: for every input and option map the geometry satisfies `width ≥ 2`,
`height ≥ 2`, `text_max_width ≤ width`, and every line has at most `text_max_width`
characters; the canvas has exactly that width and height. -/
theorem geometry_invariant (input : List Char) (options : OptionMap) :
    ∃ lines g screen, cutLines input = some lines ∧
      geometry (line_number options) (ascii_only options) lines = some g ∧
      TranslateScreen input options = some screen ∧
      screen.dim_x = g.width ∧ screen.dim_y = g.height ∧
      2 ≤ g.width ∧ 2 ≤ g.height ∧ g.text_max_width ≤ g.width ∧
      g.text_max_width = text_max_width lines ∧
      ∀ l ∈ lines, (l.length : Int) ≤ g.text_max_width := by
  obtain ⟨lines, g, s, hl, hg, hs, hx, hy, -⟩ := TranslateScreen_spec input options
  obtain ⟨f1, -, f3, f4, f5, -, -, -⟩ := geometry_facts hg
  obtain ⟨hw, hh⟩ := geometry_size hg
  refine ⟨lines, g, s, hl, hg, hs, hx, hy, hw, hh, ?_, (geometry_fields hg).2, f3⟩
  cases hln : line_number options <;> simp [hln] at f5 <;> omega

/-- C18: for every input and option map, every text-area cell right of a line's last
character, `(text_x + j, text_y + i)` with `length(line i) ≤ j < text_max_width`, is
written by no draw call and is a space in the returned canvas and in its row of the
output. -/
theorem padding_is_blank (input : List Char) (options : OptionMap) :
    ∃ lines g screen, cutLines input = some lines ∧
      geometry (line_number options) (ascii_only options) lines = some g ∧
      TranslateScreen input options = some screen ∧
      Translate input options = some (List.intercalate ['\n'] screen.rows) ∧
      ∀ (i : Fin lines.length) (j : Nat), (lines.get i).length ≤ j →
        (j : Int) < g.text_max_width →
        (∀ p ∈ framePixels (line_number options) (ascii_only options) g lines,
          ¬ (p.1 = g.text_x + (j : Int) ∧ p.2.1 = g.text_y + ((i : Nat) : Int))) ∧
        screen.cell (g.text_x + (j : Int)) (g.text_y + ((i : Nat) : Int)) = ' ' ∧
        (screen.rows[(g.text_y + ((i : Nat) : Int)).toNat]?).bind
            (fun row => row[(g.text_x + (j : Int)).toNat]?) = some ' ' := by
  obtain ⟨lines, g, s, hl, hg, hs, hx, hy, hc⟩ := TranslateScreen_spec input options
  obtain ⟨f1, f2, f3, f4, f5, f6, f7, f8⟩ := geometry_facts hg
  refine ⟨lines, g, s, hl, hg, hs, by simp [Translate, hs, Screen.ToString], ?_⟩
  intro i j hj1 hj2
  have hi : lines[(i : Nat)]? = some (lines.get i) := by
    rw [List.get_eq_getElem]
    exact List.getElem?_eq_getElem i.2
  have hno := padding_cell hg i j _ hi hj1 hj2
  have hw := lastWrite_eq_none _ _ _ hno
  have hil := i.2
  have hcell : s.cell (g.text_x + (j : Int)) (g.text_y + ((i : Nat) : Int)) = ' ' := by
    rw [hc, hw]
    rfl
  have hin : 0 ≤ g.text_x + (j : Int) ∧ g.text_x + (j : Int) < s.dim_x ∧
      0 ≤ g.text_y + ((i : Nat) : Int) ∧ g.text_y + ((i : Nat) : Int) < s.dim_y := by
    rw [hx, hy]
    cases hln : line_number options <;> cases hao : ascii_only options <;>
      simp [hln, hao] at f5 f6 f7 f8 <;> omega
  refine ⟨hno, hcell, ?_⟩
  rw [Screen.rows_cell s _ _ hin.1 hin.2.1 hin.2.2.1 hin.2.2.2, hcell]

end Frame

theorem intercalate_cons_cons (sep a b : List Char) (l : List (List Char)) :
    List.intercalate sep (a :: b :: l) = a ++ sep ++ List.intercalate sep (b :: l) := by
  simp [List.intercalate, List.intersperse]

theorem getline_cons (c : Char) (cs : List Char) :
    getline (c :: cs)
      = some ((c :: cs).takeWhile (· ≠ '\n'), ((c :: cs).dropWhile (· ≠ '\n')).drop 1) := rfl

namespace Frame

open Screen

/-- The line loop on the unread input `ss`: it appends to the lines read so far a list
of lines without line break whose join by line breaks is `ss`, or `ss` without its
final line break. -/
theorem readLines_spec (fuel : Nat) (ss : List Char) (acc : List (List Char))
    (h : ss.length < fuel) :
    ∃ ls, readLines fuel ss acc = some (acc ++ ls) ∧
      (∀ l ∈ ls, '\n' ∉ l) ∧ (ss = [] → ls = []) ∧ (ss ≠ [] → ls ≠ []) ∧
      ((List.intercalate ['\n'] ls = ss ∧ ∀ l, ls.getLast? = some l → l ≠ []) ∨
        (ls ≠ [] ∧ List.intercalate ['\n'] ls ++ ['\n'] = ss)) := by
  induction fuel generalizing ss acc with
  | zero => omega
  | succ fuel ih =>
    cases ss with
    | nil =>
      exact ⟨[], by simp [readLines, getline], by simp, fun _ => rfl, fun hne => absurd rfl hne,
        Or.inl ⟨by simp [List.intercalate], by simp⟩⟩
    | cons c cs =>
      have hg := getline_cons c cs
      have hlen := getline_length hg
      have hsplit := List.takeWhile_append_dropWhile (fun x => decide (x ≠ '\n')) (c :: cs)
      have hline : ∀ x ∈ (c :: cs).takeWhile (fun x => decide (x ≠ '\n')), x ≠ '\n' := by
        intro x hx
        simpa using List.mem_takeWhile_imp hx
      have hhead := List.head?_dropWhile_not (fun x => decide (x ≠ '\n')) (c :: cs)
      have hstep : readLines (fuel + 1) (c :: cs) acc
          = readLines fuel (((c :: cs).dropWhile (fun x => decide (x ≠ '\n'))).drop 1)
              (acc ++ [(c :: cs).takeWhile (fun x => decide (x ≠ '\n'))]) := by
        simp only [readLines, hg, to_wstring]
      generalize (c :: cs).takeWhile (fun x => decide (x ≠ '\n')) = first at *
      generalize (c :: cs).dropWhile (fun x => decide (x ≠ '\n')) = dw at *
      obtain ⟨ls, h1, h2, h3, h4, h5⟩ := ih (dw.drop 1) (acc ++ [first]) (by omega)
      refine ⟨first :: ls, ?_, ?_, ?_, ?_, ?_⟩
      · rw [hstep, h1]
        simp
      · intro l hl
        rcases List.mem_cons.1 hl with rfl | hl
        · intro hmem
          exact hline _ hmem rfl
        · exact h2 l hl
      · intro hnil
        cases hnil
      · intro _
        exact List.cons_ne_nil _ _
      · cases dw with
        | nil =>
          have hls : ls = [] := h3 rfl
          subst hls
          left
          rw [List.append_nil] at hsplit
          refine ⟨by simp [List.intercalate, hsplit], ?_⟩
          intro l hl
          simp only [List.getLast?_singleton, Option.some.injEq] at hl
          rw [← hl, hsplit]
          exact List.cons_ne_nil _ _
        | cons d tl =>
          simp only [List.head?_cons, decide_eq_false_iff_not, ne_eq, not_not] at hhead
          subst hhead
          simp only [List.drop_succ_cons, List.drop_zero] at h3 h4 h5
          cases tl with
          | nil =>
            have hls : ls = [] := h3 rfl
            subst hls
            right
            refine ⟨List.cons_ne_nil _ _, ?_⟩
            rw [← hsplit]
            simp [List.intercalate]
          | cons t ts =>
            have hne := h4 (List.cons_ne_nil _ _)
            obtain ⟨b, l, rfl⟩ := List.exists_cons_of_ne_nil hne
            rw [intercalate_cons_cons]
            rcases h5 with ⟨e1, e2⟩ | ⟨-, e1⟩
            · left
              refine ⟨?_, ?_⟩
              · rw [e1, ← hsplit]
                simp
              · intro x hx
                rw [List.getLast?_cons_cons] at hx
                exact e2 x hx
            · right
              refine ⟨List.cons_ne_nil _ _, ?_⟩
              rw [List.append_assoc, List.append_assoc, e1, ← hsplit]
              simp

/-- C12: for every input, the line loop returns lines without line break; their join
by line breaks is the input itself, with a non-empty last line, or the input without
its final line break. The empty input gives no line and a non-empty input at least
one; a final line break adds no empty line and empty lines inside are kept. -/
theorem cut_by_lines (input : List Char) :
    (∃ lines, cutLines input = some lines ∧
      (∀ l ∈ lines, '\n' ∉ l) ∧ (input = [] → lines = []) ∧ (input ≠ [] → lines ≠ []) ∧
      ((List.intercalate ['\n'] lines = input ∧ ∀ l, lines.getLast? = some l → l ≠ []) ∨
        (lines ≠ [] ∧ List.intercalate ['\n'] lines ++ ['\n'] = input))) ∧
    cutLines [] = some [] ∧
    cutLines "a\nbb".toList = some ["a".toList, "bb".toList] ∧
    cutLines "a\nbb\n".toList = some ["a".toList, "bb".toList] ∧
    cutLines "a\n\nbb".toList = some ["a".toList, [], "bb".toList] ∧
    cutLines "a\n\n".toList = some ["a".toList, []] ∧
    cutLines "\n".toList = some [[]] := by
  refine ⟨?_, by decide, by decide, by decide, by decide, by decide, by decide⟩
  obtain ⟨ls, h1, h2, h3, h4, h5⟩ := readLines_spec (input.length + 1) input [] (Nat.lt_succ_self _)
  exact ⟨ls, by simpa [cutLines] using h1, h2, h3, h4, h5⟩

/-- The last write of a sequence decides the cell whatever was written before it. -/
theorem lastWrite_append_some (x y : Int) (c : Char) (a b : List Pixel)
    (h : lastWrite x y b = some c) : lastWrite x y (a ++ b) = some c := by
  rw [lastWrite_append, h]

theorem framePixels_separator (ln ao : Bool) (g : Geometry) (lines : List (List Char))
    (x y : Int) (c : Char) (h : lastWrite x y (separatorPixels ln ao g) = some c) :
    lastWrite x y (framePixels ln ao g lines) = some c := by
  simp only [framePixels]
  exact lastWrite_append_some _ _ _ _ _ h

/-- The separator column of the box-drawing mode, as the separator call writes it. -/
theorem separator_box_cells {g : Geometry} (hh : 2 ≤ g.height) :
    lastWrite (g.number_length + 1) 0 (separatorPixels true false g) = some '┬' ∧
    lastWrite (g.number_length + 1) (g.height - 1) (separatorPixels true false g) = some '┴' ∧
    ∀ y : Int, 1 ≤ y → y ≤ g.height - 2 →
      lastWrite (g.number_length + 1) y (separatorPixels true false g)
        = some Screen.defaultVerticalGlyph := by
  refine ⟨?_, ?_, ?_⟩
  · apply lastWrite_eq_some
    · exact ⟨(g.number_length + 1, 0, '┬'), by simp [separatorPixels], rfl, rfl⟩
    · intro p hp hit
      obtain ⟨px, py, pc⟩ := p
      simp only [separatorPixels, if_true, if_false, Bool.false_eq_true, List.mem_append,
        List.mem_cons, List.mem_singleton, List.not_mem_nil, Prod.mk.injEq,
        mem_verticalLinePixels] at hp
      dsimp only at hit ⊢
      rcases hp with ⟨-, -, h3⟩ | ⟨h1, -⟩ | ⟨-, h2, -⟩ | h
      · exact h3
      · omega
      · omega
      · exact h.elim
  · have e : separatorPixels true false g
        = ((g.number_length + 1, 0, '┬')
            :: Screen.verticalLinePixels 1 (g.height - 1) (g.number_length + 1)
                Screen.defaultVerticalGlyph)
          ++ [(g.number_length + 1, g.height - 1, '┴')] := by
      simp [separatorPixels]
    rw [e]
    apply lastWrite_append_some
    simp [lastWrite]
  · intro y h1 h2
    apply lastWrite_eq_some
    · refine ⟨(g.number_length + 1, y, Screen.defaultVerticalGlyph), ?_, rfl, rfl⟩
      simp only [separatorPixels, if_true, if_false, Bool.false_eq_true, List.mem_append,
        List.mem_cons, mem_verticalLinePixels]
      right; left
      exact ⟨h1, by omega, trivial, trivial⟩
    · intro p hp hit
      obtain ⟨px, py, pc⟩ := p
      simp only [separatorPixels, if_true, if_false, Bool.false_eq_true, List.mem_append,
        List.mem_cons, List.mem_singleton, List.not_mem_nil, Prod.mk.injEq,
        mem_verticalLinePixels] at hp
      dsimp only at hit ⊢
      rcases hp with ⟨-, h2, -⟩ | ⟨-, -, -, h4⟩ | ⟨-, h2, -⟩ | h
      · omega
      · exact h4
      · omega
      · exact h.elim

/-- C14: with line numbers and the box-drawing border, for every input the returned
canvas holds `┬` in row 0, `┴` in row `height - 1` and the vertical-line glyph in every
row from 1 to `height - 2` of the separator column `number_length + 1`. -/
theorem separator_junctions (input : List Char) (options : OptionMap)
    (hnum : line_number options = true) (hbox : ascii_only options = false) :
    ∃ lines g screen, cutLines input = some lines ∧
      geometry (line_number options) (ascii_only options) lines = some g ∧
      TranslateScreen input options = some screen ∧
      screen.dim_x = g.width ∧ screen.dim_y = g.height ∧
      g.number_length + 1 < g.width - 1 ∧ 2 ≤ g.height ∧
      screen.cell (g.number_length + 1) 0 = '┬' ∧
      screen.cell (g.number_length + 1) (g.height - 1) = '┴' ∧
      ∀ y : Int, 1 ≤ y → y ≤ g.height - 2 →
        screen.cell (g.number_length + 1) y = Screen.defaultVerticalGlyph := by
  obtain ⟨lines, g, s, hl, hg, hs, hx, hy, hc⟩ := TranslateScreen_spec input options
  obtain ⟨f1, -, -, f4, f5, -, -, -⟩ := geometry_facts hg
  obtain ⟨hw, hh⟩ := geometry_size hg
  obtain ⟨j1, j2, j3⟩ := separator_box_cells hh
  rw [hnum, hbox] at hc
  rw [hnum] at f5
  simp only [if_true] at f5
  refine ⟨lines, g, s, hl, hg, hs, hx, hy, by omega, hh, ?_, ?_, ?_⟩
  · rw [hc, framePixels_separator _ _ _ _ _ _ _ j1]
    rfl
  · rw [hc, framePixels_separator _ _ _ _ _ _ _ j2]
    rfl
  · intro y h1 h2
    rw [hc, framePixels_separator _ _ _ _ _ _ _ (j3 y h1 h2)]
    rfl

/-- C14 at the input `a`, line break, `bb` with the default options. -/
theorem separator_junctions_witness :
    line_number ⟨[]⟩ = true ∧ ascii_only ⟨[]⟩ = false ∧
    ∃ lines g screen, cutLines ['a', '\n', 'b', 'b'] = some lines ∧
      geometry (line_number ⟨[]⟩) (ascii_only ⟨[]⟩) lines = some g ∧
      TranslateScreen ['a', '\n', 'b', 'b'] ⟨[]⟩ = some screen ∧
      screen.dim_x = g.width ∧ screen.dim_y = g.height ∧
      g.number_length + 1 < g.width - 1 ∧ 2 ≤ g.height ∧
      screen.cell (g.number_length + 1) 0 = '┬' ∧
      screen.cell (g.number_length + 1) (g.height - 1) = '┴' ∧
      ∀ y : Int, 1 ≤ y → y ≤ g.height - 2 →
        screen.cell (g.number_length + 1) y = Screen.defaultVerticalGlyph :=
  ⟨by decide, by decide,
    separator_junctions ['a', '\n', 'b', 'b'] ⟨[]⟩ (by decide) (by decide)⟩

/-- A number that is at least `10 ^ k` prints with more than `k` digits. -/
theorem toDigitsCore_length_ge (k n fuel : Nat) (hf : n < fuel) (hk : 10 ^ k ≤ n) :
    k + 1 ≤ (Nat.toDigitsCore 10 fuel n []).length := by
  induction k generalizing n fuel with
  | zero =>
    cases fuel with
    | zero => omega
    | succ f =>
      simp only [Nat.toDigitsCore]
      split
      · simp
      · rw [Nat.toDigitsCore_lens_eq]
        omega
  | succ k ih =>
    cases fuel with
    | zero => omega
    | succ f =>
      have hpow : 10 ^ (k + 1) = 10 ^ k * 10 := pow_succ 10 k
      have hpos : 0 < 10 ^ k := Nat.pow_pos (by norm_num)
      have hdiv : 10 ^ k ≤ n / 10 := (Nat.le_div_iff_mul_le (by norm_num)).2 (by omega)
      have hne : n / 10 ≠ 0 := by omega
      have hlt : n / 10 < f := by omega
      have := ih (n / 10) f hlt hdiv
      simp only [Nat.toDigitsCore, hne, if_false]
      rw [Nat.toDigitsCore_lens_eq]
      omega

theorem to_string_length_ge (k n : Nat) (hk : 10 ^ k ≤ n) : k + 1 ≤ (to_string n).length :=
  toDigitsCore_length_ge k n (n + 1) (Nat.lt_succ_self _) hk

/-- C17 (as amended): for every line count `n` with `1 ≤ n < 10 ^ 9`, the
`number_length` of `n` lines, computed in 32-bit arithmetic, is the length of the
decimal string of `n`, and the decimal string of every line number `k` with
`1 ≤ k ≤ n` is at most that long: it fits the gutter columns 1 to `number_length`. -/
theorem number_length_is_width_of_last_number (n : Nat) (hn : 1 ≤ n) (hlt : n < 10 ^ 9) :
    ∃ d : Nat,
      (∀ lines : List (List Char), lines.length = n →
        number_length32 lines = some (d : Int) ∧ number_length lines = some (d : Int)) ∧
      d = (to_string n).length ∧
      ∀ k : Nat, 1 ≤ k → k ≤ n → (to_string k).length ≤ d := by
  obtain ⟨d, h1, h2, h3⟩ := number_length_spec (List.replicate n [])
  simp only [List.length_replicate] at h2 h3
  have hd : 0 < d := by
    rcases Nat.eq_zero_or_pos d with h | h
    · subst h
      rw [pow_zero] at h2
      omega
    · exact h
  refine ⟨d, ?_, ?_, ?_⟩
  · rintro lines rfl
    obtain ⟨e, k1, k2, k3⟩ := number_length_spec lines
    have : e = d := by
      apply le_antisymm
      · by_contra hlt
        have := k3 d (by omega)
        omega
      · by_contra hlt
        have := h3 e (by omega)
        omega
    rw [number_length32_eq lines hlt, k1, this]
    exact ⟨rfl, rfl⟩
  · apply le_antisymm
    · have := to_string_length_ge (d - 1) n (h3 (d - 1) (by omega))
      omega
    · exact to_string_length n d h2 hd
  · intro k hk1 hk2
    exact to_string_length k d (lt_of_le_of_lt hk2 h2) hd

/-- C17 (as amended) at 12 lines: `number_length` is 2, the length of the string `12`. -/
theorem number_length_is_width_of_last_number_witness :
    1 ≤ 12 ∧ 12 < 10 ^ 9 ∧
    ∃ d : Nat,
      (∀ lines : List (List Char), lines.length = 12 →
        number_length32 lines = some (d : Int) ∧ number_length lines = some (d : Int)) ∧
      d = (to_string 12).length ∧
      ∀ k : Nat, 1 ≤ k → k ≤ 12 → (to_string k).length ≤ d :=
  ⟨by norm_num, by norm_num, number_length_is_width_of_last_number 12 (by norm_num) (by norm_num)⟩

/-- C17 (counterexample): for 1410065408 lines the decimal string of the line count
has 10 characters, but `number_length` computed in 32-bit arithmetic is 16. -/
theorem number_length_exceeds_last_number_at_1410065408 :
    (to_string 1410065408).length = 10 ∧
      number_length32 (List.replicate 1410065408 []) = some 16 ∧
      number_length32 (List.replicate 1410065408 [])
        ≠ some (((to_string 1410065408).length : Nat) : Int) := by
  have hs : (to_string 1410065408).length = 10 := by decide
  have h16 : number_length32 (List.replicate 1410065408 []) = some 16 := by
    rw [number_length32, List.length_replicate]
    decide
  refine ⟨hs, h16, ?_⟩
  rw [hs, h16]
  decide

/-- Every state of the digit-count loop entered at `(10 ^ d, d)` is `(10 ^ e, e)` for
some `e ≥ d`, and the loop condition held at `10 ^ (e - 1)` when `e > d`. -/
theorem digitStates_spec (n fuel d : Nat) :
    ∀ p ∈ digitStates (n : Int) fuel ((10 : Int) ^ d) (d : Int),
      ∃ e : Nat, d ≤ e ∧ p = ((10 : Int) ^ e, (e : Int)) ∧ (d < e → 10 ^ (e - 1) ≤ n) := by
  induction fuel generalizing d with
  | zero => simp [digitStates]
  | succ fuel ih =>
    intro p hp
    simp only [digitStates, List.mem_cons] at hp
    rcases hp with rfl | hp
    · exact ⟨d, le_refl _, rfl, fun h => absurd h (lt_irrefl _)⟩
    · by_cases hle : (10 : Int) ^ d ≤ (n : Int)
      · rw [if_pos hle] at hp
        have e1 : (10 : Int) ^ d * 10 = (10 : Int) ^ (d + 1) := (pow_succ (10 : Int) d).symm
        have e2 : (d : Int) + 1 = ((d + 1 : Nat) : Int) := by push_cast; rfl
        rw [e1, e2] at hp
        obtain ⟨e, h1, h2, h3⟩ := ih (d + 1) p hp
        refine ⟨e, by omega, h2, ?_⟩
        intro _
        rcases Nat.lt_or_ge (d + 1) e with h | h
        · exact h3 h
        · have he : e = d + 1 := by omega
          subst he
          simp only [Nat.add_sub_cancel]
          exact_mod_cast hle
      · rw [if_neg hle] at hp
        simp at hp

theorem digitStates_succ (size : Int) (fuel : Nat) (m d : Int) :
    digitStates size (fuel + 1) m d
      = (m, d) :: (if m ≤ size then digitStates size fuel (m * 10) (d + 1) else []) := rfl

/-- With enough fuel the loop reaches `(10 ^ (d + k), d + k)` from `(10 ^ d, d)` when
its condition holds at the `k` powers before. -/
theorem digitStates_reach (n fuel d k : Nat) (hk : ∀ j, j < k → 10 ^ (d + j) ≤ n) :
    ((10 : Int) ^ (d + k), ((d + k : Nat) : Int))
      ∈ digitStates (n : Int) (fuel + k + 1) ((10 : Int) ^ d) (d : Int) := by
  induction k generalizing d with
  | zero => simp [digitStates]
  | succ k ih =>
    have hle : (10 : Int) ^ d ≤ (n : Int) := by
      have := hk 0 (by omega)
      simp only [Nat.add_zero] at this
      exact_mod_cast this
    have e1 : (10 : Int) ^ d * 10 = (10 : Int) ^ (d + 1) := (pow_succ (10 : Int) d).symm
    have e2 : (d : Int) + 1 = ((d + 1 : Nat) : Int) := by push_cast; rfl
    have e3 : fuel + (k + 1) + 1 = (fuel + k + 1) + 1 := by omega
    have e4 : d + (k + 1) = d + 1 + k := by omega
    rw [e3, digitStates_succ, if_pos hle, e1, e2, e4]
    apply List.mem_cons_of_mem
    apply ih
    intro j hj
    have := hk (j + 1) (by omega)
    rw [show d + (j + 1) = d + 1 + j by omega] at this
    exact this

theorem digitLoop_last (size : Int) (fuel : Nat) (m d : Int) (r : Int × Int)
    (h : digitLoop size fuel m d = some r) : (digitStates size fuel m d).getLast? = some r := by
  induction fuel generalizing m d with
  | zero => simp [digitLoop] at h
  | succ fuel ih =>
    by_cases hle : m ≤ size
    · simp only [digitLoop, hle, if_true] at h
      have h1 := ih _ _ h
      simp only [digitStates, hle, if_true]
      cases hs : digitStates size fuel (m * 10) (d + 1) with
      | nil => rw [hs] at h1; simp at h1
      | cons a as =>
        rw [hs] at h1
        rw [List.getLast?_cons_cons]
        exact h1
    · simp only [digitLoop, hle, if_false, Option.some.injEq] at h
      subst h
      simp [digitStates, hle]

/-- C19: in the digit-count loop started from `(1, 0)`, every state has
`max_number = 10 ^ number_length`, and the state in which the loop exits is the last
one; for a line count `n < 10 ^ 9` every value of `max_number` is at most `10 ^ 9`,
which is within `2 ^ 31 - 1`; for `n ≥ 10 ^ 9` the loop reaches `max_number = 10 ^ 9`
with its condition true and multiplies it to `10 ^ 10`, which exceeds `2 ^ 31 - 1`. -/
theorem max_number_power_and_range (n : Nat) :
    (∀ fuel : Nat, ∀ p ∈ digitStates (n : Int) fuel 1 0,
      ∃ e : Nat, p.2 = (e : Int) ∧ p.1 = (10 : Int) ^ e) ∧
    (∀ fuel : Nat, ∀ r, digitLoop (n : Int) fuel 1 0 = some r →
      (digitStates (n : Int) fuel 1 0).getLast? = some r) ∧
    (n < 10 ^ 9 → ∀ fuel : Nat, ∀ p ∈ digitStates (n : Int) fuel 1 0,
      p.1 ≤ 10 ^ 9 ∧ p.1 ≤ 2 ^ 31 - 1) ∧
    (10 ^ 9 ≤ n → ∀ fuel : Nat, 11 ≤ fuel →
      ((10 : Int) ^ 9, 9) ∈ digitStates (n : Int) fuel 1 0 ∧ (10 : Int) ^ 9 ≤ (n : Int) ∧
      ((10 : Int) ^ 9 * 10, 10) ∈ digitStates (n : Int) fuel 1 0 ∧
      (2 : Int) ^ 31 - 1 < (10 : Int) ^ 9 * 10) := by
  have hstart : ∀ fuel, digitStates (n : Int) fuel 1 0
      = digitStates (n : Int) fuel ((10 : Int) ^ 0) ((0 : Nat) : Int) := by
    intro fuel
    simp
  refine ⟨?_, ?_, ?_, ?_⟩
  · intro fuel p hp
    rw [hstart] at hp
    obtain ⟨e, -, rfl, -⟩ := digitStates_spec n fuel 0 p hp
    exact ⟨e, rfl, rfl⟩
  · intro fuel r hr
    exact digitLoop_last _ _ _ _ _ hr
  · intro hn fuel p hp
    rw [hstart] at hp
    obtain ⟨e, -, rfl, h3⟩ := digitStates_spec n fuel 0 p hp
    have he : e ≤ 9 := by
      by_contra hlt
      have h4 := h3 (by omega)
      have h5 : 10 ^ 9 ≤ 10 ^ (e - 1) := Nat.pow_le_pow_right (by norm_num) (by omega)
      omega
    have h6 : (10 : Int) ^ e ≤ (10 : Int) ^ 9 := by
      have : 10 ^ e ≤ 10 ^ 9 := Nat.pow_le_pow_right (by norm_num) he
      exact_mod_cast this
    refine ⟨h6, le_trans h6 (by norm_num)⟩
  · intro hn fuel hf
    have hpow : ∀ j, j < 10 → 10 ^ (0 + j) ≤ n := by
      intro j hj
      have : 10 ^ (0 + j) ≤ 10 ^ 9 := Nat.pow_le_pow_right (by norm_num) (by omega)
      omega
    have r9 := digitStates_reach n (fuel - 10) 0 9 (fun j hj => hpow j (by omega))
    have r10 := digitStates_reach n (fuel - 11) 0 10 hpow
    have f9 : fuel - 10 + 9 + 1 = fuel := by omega
    have f10 : fuel - 11 + 10 + 1 = fuel := by omega
    rw [f9] at r9
    rw [f10] at r10
    rw [hstart]
    refine ⟨by simpa using r9, by exact_mod_cast hn, ?_, by norm_num⟩
    have e10 : ((10 : Int) ^ 9 * 10, (10 : Int)) = ((10 : Int) ^ (0 + 10), ((0 + 10 : Nat) : Int)) := by
      norm_num
    rw [e10]
    exact r10

end Frame
end Diagon
